import Mathlib

/-!
Verification of the Streets and Alleys solver repository.

The Go file `go_solver/streets_and_alleys.go` represents a game as
`StreetsGame { Rows [8][19]Card }`: 8 tableau rows of at most 19 cards,
where the zero value `Card{}` marks an unused slot.  All operations in
that file (`getRowLength`, `getFirstCard`, `getLastCard`, `Hash`,
`applyMove`, ...) treat a row as the sequence of its non-empty cells,
and every operation preserves contiguity (cards are removed from the
top / appended at the first free slot).  We therefore embed a row as a
`List Card` of its real cards, and the game as the list of its 8 rows;
the 19-slot capacity reappears as an explicit bound where the code
checks it.
-/

namespace SA

/-- Suit of a card: "H", "D", "C" or "S" in the Go source. -/
inductive Suit where
  | H
  | D
  | C
  | S
deriving DecidableEq, Repr

/-- `Card` from streets_and_alleys.go: `Value` is 1 for Ace up to 13 for
King, plus a suit.  The zero value `Card{}` of the Go struct is not a
member of this type: it only marks unused array slots, which the list
embedding drops. -/
structure Card where
  Value : Nat
  Suit : Suit
deriving DecidableEq, Repr

/-- Suit priority used by `compareCards` (H=0, D=1, C=2, S=3). -/
def suitPriority : Suit → Nat
  | .H => 0
  | .D => 1
  | .C => 2
  | .S => 3

/-- `compareCards` from streets_and_alleys.go: lower value first, ties
broken by suit priority H, D, C, S. -/
def compareCards (a b : Card) : Bool :=
  if a.Value ≠ b.Value then a.Value < b.Value
  else suitPriority a.Suit < suitPriority b.Suit

/-- A tableau row: the non-empty cells of one `[19]Card` Go row, bottom
(column 0) first. -/
abbrev Row := List Card

/-- `StreetsGame` from streets_and_alleys.go.  `Rows` lists the 8 rows;
cards absent from all rows are implicitly on the foundations. -/
structure StreetsGame where
  Rows : List Row
deriving DecidableEq, Repr

/-- One comparison step of the double loop in `NormalizeRows`: swap rows
`a` (at index i) and `b` (at index j) when `b` is longer, or lengths are
equal and `a` is empty, or both are non-empty and `a`'s first card is not
strictly before `b`'s (ties also swap, exactly as in the Go code, where
`!compareCards(cardI, cardJ)` holds for equal cards). -/
def swapCond (a b : Row) : Bool :=
  if a.length < b.length then true
  else if a.length = b.length then
    match a.head?, b.head? with
    | none, _ => true
    | some _, none => false
    | some ca, some cb => ¬ compareCards ca cb
  else false

/-- One pass of the selection loop of `NormalizeRows` for a fixed outer
index: `selPass x xs` scans `xs`, swapping the current front element
whenever `swapCond` fires, and returns the element left at the outer
index together with the remaining rows in their final positions. -/
def selPass : Row → List Row → Row × List Row
  | x, [] => (x, [])
  | x, y :: ys =>
    if swapCond x y then
      let p := selPass y ys
      (p.1, x :: p.2)
    else
      let p := selPass x ys
      (p.1, y :: p.2)

/-- The full double loop of `NormalizeRows`: one `selPass` per outer
index.  The fuel argument equals the number of outer iterations; the Go
code runs the outer loop once per row. -/
def selSortFuel : Nat → List Row → List Row
  | 0, l => l
  | _ + 1, [] => []
  | n + 1, x :: xs =>
    let p := selPass x xs
    p.1 :: selSortFuel n p.2

/-- `NormalizeRows` from streets_and_alleys.go: sort the rows, longest
first, ties broken by the first card (lowest value, then H, D, C, S),
empty rows last. -/
def NormalizeRows (rows : List Row) : List Row :=
  selSortFuel rows.length rows

/-- The weak order underlying `swapCond`: `rowLE a b` means `a` may
stay in front of `b` (the Go loop would swap `b` before `a`,
i.e. `swapCond b a`). -/
def rowLE (a b : Row) : Prop := swapCond b a = true

instance : DecidableRel rowLE := fun a b => by
  unfold rowLE; infer_instance

/-- Numeric key realizing `compareCards` as `<` on naturals. -/
def cardKey (c : Card) : Nat := 4 * c.Value + suitPriority c.Suit

lemma suitPriority_lt_four (s : Suit) : suitPriority s < 4 := by
  cases s <;> simp [suitPriority]

lemma suitPriority_injective {s t : Suit} (h : suitPriority s = suitPriority t) : s = t := by
  cases s <;> cases t <;> simp_all [suitPriority]

lemma cardKey_inj {a b : Card} (h : cardKey a = cardKey b) : a = b := by
  unfold cardKey at h
  have ha := suitPriority_lt_four a.Suit
  have hb := suitPriority_lt_four b.Suit
  have hv : a.Value = b.Value := by omega
  have hs : suitPriority a.Suit = suitPriority b.Suit := by omega
  cases a; cases b
  simp only [Card.mk.injEq]
  exact ⟨hv, suitPriority_injective hs⟩

lemma compareCards_eq_key (a b : Card) :
    compareCards a b = decide (cardKey a < cardKey b) := by
  unfold compareCards cardKey
  have ha := suitPriority_lt_four a.Suit
  have hb := suitPriority_lt_four b.Suit
  by_cases h : a.Value = b.Value
  · simp only [h, ne_eq, not_true_eq_false, if_false, decide_eq_decide]
    omega
  · simp only [ne_eq, h, not_false_eq_true, if_true, decide_eq_decide]
    omega

/-- Key of the first card of a row (0 for an empty row; only compared
between rows of equal length, so the empty case never collides). -/
def headKey (r : Row) : Nat :=
  match r.head? with
  | none => 0
  | some c => cardKey c

lemma swapCond_iff (a b : Row) :
    swapCond a b = true ↔
      a.length < b.length ∨ (a.length = b.length ∧ headKey b ≤ headKey a) := by
  rcases a with _ | ⟨x, xs⟩ <;> rcases b with _ | ⟨y, ys⟩ <;>
    simp [swapCond, headKey, compareCards_eq_key]

lemma rowLE_iff (a b : Row) :
    rowLE a b ↔ b.length < a.length ∨ (a.length = b.length ∧ headKey a ≤ headKey b) := by
  unfold rowLE
  rw [swapCond_iff]
  omega

lemma rowLE_refl (a : Row) : rowLE a a := by
  rw [rowLE_iff]; omega

lemma rowLE_total {a b : Row} (h : ¬ rowLE a b) : rowLE b a := by
  rw [rowLE_iff] at *; omega

lemma rowLE_trans {a b c : Row} (h₁ : rowLE a b) (h₂ : rowLE b c) : rowLE a c := by
  rw [rowLE_iff] at *; omega

/-- Two rows below each other in the weak order have the same length and
the same first card. -/
lemma rowLE_antisymm_key {a b : Row} (h₁ : rowLE a b) (h₂ : rowLE b a) :
    a.length = b.length ∧ a.head? = b.head? := by
  rw [rowLE_iff] at h₁ h₂
  have hl : a.length = b.length := by omega
  have hk : headKey a = headKey b := by omega
  refine ⟨hl, ?_⟩
  rcases a with _ | ⟨x, xs⟩ <;> rcases b with _ | ⟨y, ys⟩ <;>
    simp_all [headKey]
  exact cardKey_inj hk

lemma selPass_cons_pos {x y : Row} (ys : List Row) (h : swapCond x y = true) :
    selPass x (y :: ys) = ((selPass y ys).1, x :: (selPass y ys).2) := by
  simp [selPass, h]

lemma selPass_cons_neg {x y : Row} (ys : List Row) (h : swapCond x y = false) :
    selPass x (y :: ys) = ((selPass x ys).1, y :: (selPass x ys).2) := by
  simp [selPass, h]

lemma selPass_perm (x : Row) (xs : List Row) :
    ((selPass x xs).1 :: (selPass x xs).2).Perm (x :: xs) := by
  induction xs generalizing x with
  | nil => simp [selPass]
  | cons y ys ih =>
    cases h : swapCond x y with
    | true =>
      rw [selPass_cons_pos ys h]
      exact (List.Perm.swap x (selPass y ys).1 (selPass y ys).2).trans ((ih y).cons x)
    | false =>
      rw [selPass_cons_neg ys h]
      exact (List.Perm.swap y (selPass x ys).1 (selPass x ys).2).trans
        (((ih x).cons y).trans (List.Perm.swap x y ys))

lemma selPass_min (x : Row) (xs : List Row) :
    ∀ z ∈ x :: xs, rowLE (selPass x xs).1 z := by
  induction xs generalizing x with
  | nil =>
    intro z hz
    rcases List.mem_cons.mp hz with h | h
    · subst h
      exact rowLE_refl _
    · simp at h
  | cons y ys ih =>
    intro z hz
    cases h : swapCond x y with
    | true =>
      have hyx : rowLE y x := h
      rw [selPass_cons_pos ys h]
      rcases List.mem_cons.mp hz with h1 | h1
      · subst h1
        exact rowLE_trans (ih y y (by simp)) hyx
      · exact ih y z h1
    | false =>
      have hxy : rowLE x y := @rowLE_total y x (by simp [rowLE, h])
      rw [selPass_cons_neg ys h]
      rcases List.mem_cons.mp hz with h1 | h1
      · rw [h1]
        exact ih x x (by simp)
      · rcases List.mem_cons.mp h1 with h2 | h2
        · rw [h2]
          exact rowLE_trans (ih x x (by simp)) hxy
        · exact ih x z (List.mem_cons_of_mem x h2)

lemma selPass_length (x : Row) (xs : List Row) :
    (selPass x xs).2.length = xs.length := by
  have h := (selPass_perm x xs).length_eq
  simpa using h

lemma selSortFuel_perm : ∀ (n : Nat) (l : List Row), (selSortFuel n l).Perm l
  | 0, _ => List.Perm.refl _
  | _ + 1, [] => List.Perm.refl _
  | n + 1, x :: xs => by
    unfold selSortFuel
    exact ((selSortFuel_perm n (selPass x xs).2).cons _).trans (selPass_perm x xs)

lemma selSortFuel_pairwise :
    ∀ (n : Nat) (l : List Row), l.length ≤ n → (selSortFuel n l).Pairwise rowLE
  | 0, l, h => by
    have : l = [] := List.eq_nil_of_length_eq_zero (by omega)
    simp [this, selSortFuel]
  | _ + 1, [], _ => by simp [selSortFuel]
  | n + 1, x :: xs, h => by
    unfold selSortFuel
    refine List.Pairwise.cons ?_ ?_
    · intro z hz
      have hz' : z ∈ (selPass x xs).2 :=
        ((selSortFuel_perm n (selPass x xs).2).mem_iff).mp hz
      have hz2 : z ∈ x :: xs :=
        ((selPass_perm x xs).mem_iff).mp (List.mem_cons_of_mem _ hz')
      exact selPass_min x xs z hz2
    · exact selSortFuel_pairwise n _ (by rw [selPass_length]; simpa using h)

lemma NormalizeRows_perm (l : List Row) : (NormalizeRows l).Perm l :=
  selSortFuel_perm _ _

lemma NormalizeRows_pairwise (l : List Row) : (NormalizeRows l).Pairwise rowLE :=
  selSortFuel_pairwise _ _ (Nat.le_refl _)

/-- Sorted permutations with globally distinct cards are equal: the key
(length, first card) is antisymmetric as soon as no card occurs twice
across the whole tableau. -/
lemma eq_of_perm_of_pairwise :
    ∀ {l₁ l₂ : List Row}, l₁.Perm l₂ → l₁.Pairwise rowLE → l₂.Pairwise rowLE →
      l₂.flatten.Nodup → l₁ = l₂
  | [], l₂, hp, _, _, _ => hp.nil_eq
  | a :: t₁, [], hp, _, _, _ => absurd hp.length_eq (by simp)
  | a :: t₁, b :: t₂, hp, hs₁, hs₂, hnd => by
    rw [List.flatten_cons, List.nodup_append] at hnd
    by_cases hab : a = b
    · subst hab
      have ht : t₁.Perm t₂ := hp.cons_inv
      have : t₁ = t₂ :=
        eq_of_perm_of_pairwise ht hs₁.of_cons hs₂.of_cons hnd.2.1
      rw [this]
    · exfalso
      have ha2 : a ∈ t₂ := by
        have := hp.mem_iff.mp (List.mem_cons_self a t₁)
        rcases List.mem_cons.mp this with h | h
        · exact absurd h hab
        · exact h
      have hb1 : b ∈ t₁ := by
        have := hp.mem_iff.mpr (List.mem_cons_self b t₂)
        rcases List.mem_cons.mp this with h | h
        · exact absurd h.symm hab
        · exact h
      have h₁ : rowLE a b := (List.pairwise_cons.mp hs₁).1 b hb1
      have h₂ : rowLE b a := (List.pairwise_cons.mp hs₂).1 a ha2
      obtain ⟨hlen, hhead⟩ := rowLE_antisymm_key h₁ h₂
      rcases a with _ | ⟨x, xs⟩
      · have : b = [] := List.eq_nil_of_length_eq_zero (by simpa using hlen.symm)
        exact hab (this ▸ rfl)
      · rcases b with _ | ⟨y, ys⟩
        · simp at hlen
        · have hxy : x = y := by simpa using hhead
          subst hxy
          have hx2 : x ∈ t₂.flatten := List.mem_flatten.mpr ⟨x :: xs, ha2, by simp⟩
          exact hnd.2.2 (by simp) hx2

/-- Normalization depends only on the multiset of rows, provided no card
occurs twice across the tableau. -/
lemma NormalizeRows_eq_of_perm {l₁ l₂ : List Row} (h : l₁.Perm l₂)
    (hnd : l₁.flatten.Nodup) : NormalizeRows l₁ = NormalizeRows l₂ := by
  refine eq_of_perm_of_pairwise ?_ (NormalizeRows_pairwise l₁) (NormalizeRows_pairwise l₂) ?_
  · exact (NormalizeRows_perm l₁).trans (h.trans (NormalizeRows_perm l₂).symm)
  · have : (NormalizeRows l₂).flatten.Perm l₁.flatten :=
      ((NormalizeRows_perm l₂).flatten).trans (h.symm.flatten)
    exact (this.nodup_iff).mpr hnd

/-! ### Bit-level codec

`Hash` in streets_and_alleys.go emits a stream of 6-bit codes (one per
card, value `(Value-1)*4 + suit`, plus `63` as row delimiter), packed
big-endian into bytes through an accumulator, the final partial byte
zero-padded.  `FromHash` re-reads the byte stream 6 bits at a time.  We
model the bit stream explicitly: `toBitsBE n v` is the `n`-bit
big-endian representation of `v`, `fromBits` the inverse, and `chunks`
the grouping that the accumulator loops realize. -/

/-- Big-endian bits of `v`, `n` bits wide (most significant first). -/
def toBitsBE : Nat → Nat → List Bool
  | 0, _ => []
  | n + 1, v => decide ((v / 2 ^ n) % 2 = 1) :: toBitsBE n v

/-- Value of a big-endian bit list. -/
def fromBits : List Bool → Nat
  | [] => 0
  | b :: l => (if b then 2 ^ l.length else 0) + fromBits l

lemma toBitsBE_length (n v : Nat) : (toBitsBE n v).length = n := by
  induction n generalizing v with
  | zero => rfl
  | succ n ih => simp [toBitsBE, ih]

lemma fromBits_lt (l : List Bool) : fromBits l < 2 ^ l.length := by
  induction l with
  | nil => simp [fromBits]
  | cons b t ih =>
    simp only [fromBits, List.length_cons, pow_succ]
    split <;> omega

lemma fromBits_toBitsBE (n v : Nat) : fromBits (toBitsBE n v) = v % 2 ^ n := by
  induction n generalizing v with
  | zero => simp [toBitsBE, fromBits, Nat.mod_one]
  | succ n ih =>
    simp only [toBitsBE, fromBits, toBitsBE_length, ih]
    have hq : v % 2 ^ (n + 1) = v % 2 ^ n + 2 ^ n * (v / 2 ^ n % 2) := by
      rw [pow_succ, Nat.mod_mul]
    have h01 : v / 2 ^ n % 2 = 0 ∨ v / 2 ^ n % 2 = 1 := Nat.mod_two_eq_zero_or_one _
    rcases h01 with h | h <;> simp [h, hq] <;> try omega

/-- Bits read only below position `n` determine `toBitsBE n`. -/
lemma toBitsBE_congr (n : Nat) {v w : Nat}
    (h : ∀ k, k < n → v / 2 ^ k % 2 = w / 2 ^ k % 2) :
    toBitsBE n v = toBitsBE n w := by
  induction n with
  | zero => rfl
  | succ n ih =>
    simp only [toBitsBE]
    rw [h n (by omega), ih (fun k hk => h k (by omega))]

lemma toBitsBE_add_high (n : Nat) (a r : Nat) :
    toBitsBE n (a * 2 ^ n + r) = toBitsBE n r := by
  refine toBitsBE_congr n (fun k hk => ?_)
  have hp : (2 : Nat) ^ n = 2 * 2 ^ (n - k - 1) * 2 ^ k := by
    rw [Nat.mul_assoc, ← pow_add, ← pow_succ']
    congr 1
    omega
  have h2 : a * 2 ^ n = (2 * (a * 2 ^ (n - k - 1))) * 2 ^ k := by
    rw [hp]
    ring
  rw [h2, Nat.add_comm, Nat.add_mul_div_right _ _ (Nat.two_pow_pos k),
    Nat.add_mul_mod_self_left]

/-- Reconstructing the bits of a bit list of the right length. -/
lemma toBitsBE_fromBits (l : List Bool) : toBitsBE l.length (fromBits l) = l := by
  induction l with
  | nil => rfl
  | cons b t ih =>
    have hlt := fromBits_lt t
    have hrw : (if b then 2 ^ t.length else 0) + fromBits t
        = (if b then 1 else 0) * 2 ^ t.length + fromBits t := by
      cases b <;> simp
    simp only [List.length_cons, toBitsBE, fromBits, hrw]
    have hdiv : ((if b then 1 else 0) * 2 ^ t.length + fromBits t) / 2 ^ t.length
        = (if b then 1 else 0) := by
      rw [Nat.add_comm, Nat.add_mul_div_right _ _ (Nat.two_pow_pos t.length),
        Nat.div_eq_of_lt hlt, Nat.zero_add]
    rw [List.cons.injEq]
    constructor
    · rw [hdiv]
      cases b <;> simp
    · rw [toBitsBE_add_high, ih]

/-- Split a list into chunks of `k` elements, the last chunk possibly
shorter (fuel-driven; `chunks` below supplies enough fuel). -/
def chunksF (k : Nat) : Nat → List Bool → List (List Bool)
  | 0, _ => []
  | _ + 1, [] => []
  | fuel + 1, l => l.take k :: chunksF k fuel (l.drop k)

def chunks (k : Nat) (l : List Bool) : List (List Bool) := chunksF k l.length l

lemma chunksF_congr (k : Nat) (hk : 0 < k) :
    ∀ (f₁ f₂ : Nat) (l : List Bool), l.length ≤ f₁ → l.length ≤ f₂ →
      chunksF k f₁ l = chunksF k f₂ l
  | 0, f₂, l, h₁, h₂ => by
    have : l = [] := List.eq_nil_of_length_eq_zero (by omega)
    subst this
    cases f₂ <;> rfl
  | f₁ + 1, 0, l, h₁, h₂ => by
    have : l = [] := List.eq_nil_of_length_eq_zero (by omega)
    subst this
    rfl
  | f₁ + 1, f₂ + 1, [], h₁, h₂ => rfl
  | f₁ + 1, f₂ + 1, x :: xs, h₁, h₂ => by
    simp only [List.length_cons] at h₁ h₂
    simp only [chunksF]
    rw [chunksF_congr k hk f₁ f₂ ((x :: xs).drop k)
      (by simp only [List.length_drop, List.length_cons]; omega)
      (by simp only [List.length_drop, List.length_cons]; omega)]

lemma chunks_cons_of_take (k : Nat) (hk : 0 < k) (c rest : List Bool)
    (hc : c.length = k) : chunks k (c ++ rest) = c :: chunks k rest := by
  unfold chunks
  have hlen : (c ++ rest).length = k + rest.length := by simp [hc]
  cases hcr : c ++ rest with
  | nil =>
    exfalso
    have := congrArg List.length hcr
    simp [hc] at this
    omega
  | cons a l =>
    rw [← hcr]
    have h1 : (c ++ rest).length = rest.length + k := by simp [hc]; omega
    rw [h1]
    have h2 : rest.length + k = (rest.length + k - 1) + 1 := by omega
    rw [h2]
    have h3 : c ++ rest ≠ [] := by
      intro h
      have := congrArg List.length h
      simp [hc] at this
      omega
    have : chunksF k ((rest.length + k - 1) + 1) (c ++ rest)
        = (c ++ rest).take k :: chunksF k (rest.length + k - 1) ((c ++ rest).drop k) := by
      cases hcc : c ++ rest with
      | nil => exact absurd hcc h3
      | cons a l => rfl
    rw [this]
    rw [List.take_append_of_le_length (by omega), List.drop_append_of_le_length (by omega)]
    rw [List.take_of_length_le (by omega), List.drop_of_length_le (by omega)]
    simp only [List.nil_append]
    congr 1
    exact chunksF_congr k hk _ _ rest (by omega) (by omega)

lemma chunks_nil (k : Nat) : chunks k [] = [] := rfl

/-- Chunking the concatenation of `n`-bit blocks recovers the blocks. -/
lemma chunks_flatMap (k : Nat) (hk : 0 < k) (f : Nat → List Bool)
    (hf : ∀ v, (f v).length = k) :
    ∀ (codes : List Nat) (rest : List Bool),
      chunks k (codes.flatMap f ++ rest) = codes.map f ++ chunks k rest
  | [], rest => by simp
  | c :: cs, rest => by
    simp only [List.flatMap_cons, List.map_cons, List.append_assoc]
    rw [chunks_cons_of_take k hk (f c) _ (hf c), chunks_flatMap k hk f hf cs rest]
    simp

lemma chunksF_flatten (k : Nat) (hk : 0 < k) :
    ∀ (fuel : Nat) (l : List Bool), l.length ≤ fuel → (chunksF k fuel l).flatten = l
  | 0, l, h => by
    have : l = [] := List.eq_nil_of_length_eq_zero (by omega)
    subst this
    rfl
  | fuel + 1, [], _ => rfl
  | fuel + 1, x :: xs, h => by
    show ((x :: xs).take k :: chunksF k fuel ((x :: xs).drop k)).flatten = x :: xs
    rw [List.flatten_cons,
      chunksF_flatten k hk fuel ((x :: xs).drop k)
        (by simp only [List.length_drop, List.length_cons] at *; omega),
      List.take_append_drop]

lemma chunks_flatten (k : Nat) (hk : 0 < k) (l : List Bool) :
    (chunks k l).flatten = l :=
  chunksF_flatten k hk l.length l (Nat.le_refl _)

lemma chunksF_length_of_dvd (k : Nat) (hk : 0 < k) :
    ∀ (fuel : Nat) (l : List Bool), l.length ≤ fuel → k ∣ l.length →
      ∀ c ∈ chunksF k fuel l, c.length = k
  | 0, l, h, _, c, hc => by
    have : l = [] := List.eq_nil_of_length_eq_zero (by omega)
    subst this
    simp [chunksF] at hc
  | fuel + 1, [], _, _, c, hc => by simp [chunksF] at hc
  | fuel + 1, x :: xs, h, hdvd, c, hc => by
    have hklen : k ≤ (x :: xs).length := by
      rcases hdvd with ⟨m, hm⟩
      rcases m with _ | m
      · simp at hm
      · simp only [hm]
        calc k = k * 1 := by omega
          _ ≤ k * (m + 1) := Nat.mul_le_mul_left k (by omega)
    have hc' : c ∈ (x :: xs).take k :: chunksF k fuel ((x :: xs).drop k) := hc
    rcases List.mem_cons.mp hc' with h1 | h1
    · rw [h1, List.length_take]
      omega
    · refine chunksF_length_of_dvd k hk fuel ((x :: xs).drop k) ?_ ?_ c h1
      · simp only [List.length_drop, List.length_cons] at *
        omega
      · simp only [List.length_drop]
        exact Nat.dvd_sub' hdvd (dvd_refl k)

lemma chunks_length_of_dvd (k : Nat) (hk : 0 < k) (l : List Bool)
    (hdvd : k ∣ l.length) : ∀ c ∈ chunks k l, c.length = k :=
  chunksF_length_of_dvd k hk l.length l (Nat.le_refl _) hdvd

/-! ### The `Hash` encoder and `FromHash` decoder -/

/-- 6-bit code of a card: `(Value-1)*4 + suit` as in `Hash`. -/
def card6 (c : Card) : Nat := (c.Value - 1) * 4 + suitPriority c.Suit

/-- Code stream of a tableau: the cards of each row in order, rows
separated by the delimiter value 63 (delimiter after every row except
the last, as in the Go loop `if row < 7`). -/
def hashCodes : List Row → List Nat
  | [] => []
  | [r] => r.map card6
  | r :: r' :: rs => r.map card6 ++ 63 :: hashCodes (r' :: rs)

/-- Pack 6-bit codes big-endian into bytes, zero-padding the final
partial byte — the accumulator loop (`add6Bits` plus the final flush) of
`Hash`. -/
def pack (codes : List Nat) : List Nat :=
  let bits := codes.flatMap (toBitsBE 6)
  (chunks 8 (bits ++ List.replicate ((8 - bits.length % 8) % 8) false)).map fromBits

/-- `Hash` from streets_and_alleys.go: normalize the rows, then pack the
6-bit code stream into bytes. -/
def Hash (g : StreetsGame) : List Nat :=
  pack (hashCodes (NormalizeRows g.Rows))

/-- The error cases of `FromHash` (ParseError in the spec). -/
inductive ParseErr where
  | emptyHash
  | incompleteCard
  | tooManyRows
  | tooManyCards (row : Nat)
deriving DecidableEq, Repr

/-- Decoder state: completed rows (before `currentRow`) and the cards of
the current row (`currentCol = cur.length`). -/
structure DecodeSt where
  done : List Row
  cur : Row
deriving DecidableEq, Repr

/-- The final `[8][19]Card` array of `FromHash` as a row list: decoded
rows, then the still-open row, then untouched empty rows. -/
def finishRows (st : DecodeSt) : List Row :=
  st.done ++ st.cur :: List.replicate (7 - st.done.length) []

/-- Inverse of `card6` as computed by `FromHash`:
`cardNum := value/4 + 1`, `suit := suitFromValue[value%4]`. -/
def decodeCard (v : Nat) : Card :=
  ⟨v / 4 + 1,
    match v % 4 with
    | 0 => Suit.H
    | 1 => Suit.D
    | 2 => Suit.C
    | _ => Suit.S⟩

/-- The 6-bit read loop of `FromHash` over the chunked bit stream.  A
short (non-empty) final chunk is the `incomplete card data` error; a
zero group with nothing further is the clean end of data (this is also
how the Go loop treats a final group that is pure padding); 63 is the
row delimiter. -/
def parseGroups : List (List Bool) → DecodeSt → Except ParseErr (List Row)
  | [], st => .ok (finishRows st)
  | g :: rest, st =>
    if g.length < 6 then .error .incompleteCard
    else
      let v := fromBits g
      if v = 0 ∧ rest = [] then .ok (finishRows st)
      else if v = 63 then
        if 8 ≤ st.done.length + 1 then .error .tooManyRows
        else parseGroups rest ⟨st.done ++ [st.cur], []⟩
      else if 19 ≤ st.cur.length then .error (.tooManyCards st.done.length)
      else parseGroups rest ⟨st.done, st.cur ++ [decodeCard v]⟩

/-- `FromHash` from streets_and_alleys.go. -/
def FromHash (bytes : List Nat) : Except ParseErr StreetsGame :=
  if bytes = [] then .error .emptyHash
  else (parseGroups (chunks 6 (bytes.flatMap (toBitsBE 8))) ⟨[], []⟩).map StreetsGame.mk

/-- `Equals` from streets_and_alleys.go: normalize both states and
compare position by position. -/
def Equals (g h : StreetsGame) : Bool :=
  NormalizeRows g.Rows == NormalizeRows h.Rows

/-- `CountCardsInRows` from streets_and_alleys.go. -/
def CountCardsInRows (g : StreetsGame) : Nat :=
  (g.Rows.map List.length).sum

/-- C1: two GameStates whose rows are a permutation of one another (and
which, as every GameState does, hold each card at most once) produce the
identical `Hash` byte string, because `NormalizeRows` orders the rows
canonically (longest first, ties by lowest first-card value with suit
priority H, D, C, S) before serialization. -/
theorem Hash_eq_of_rows_perm (g₁ g₂ : StreetsGame)
    (hperm : g₁.Rows.Perm g₂.Rows) (hnodup : g₁.Rows.flatten.Nodup) :
    Hash g₁ = Hash g₂ := by
  unfold Hash
  rw [NormalizeRows_eq_of_perm hperm hnodup]

/-- Witness for C1 at a concrete pair of column-permuted states. -/
theorem Hash_eq_of_rows_perm_witness :
    Hash ⟨[[⟨2, .H⟩], [], [⟨1, .S⟩, ⟨4, .D⟩], [], [], [], [], []]⟩
      = Hash ⟨[[⟨1, .S⟩, ⟨4, .D⟩], [], [], [⟨2, .H⟩], [], [], [], []]⟩ :=
  Hash_eq_of_rows_perm _ _ (by decide) (by decide)

/-! ### Decode∘encode roundtrip analysis (C2) -/

lemma length_flatMap_toBitsBE (k : Nat) (codes : List Nat) :
    (codes.flatMap (toBitsBE k)).length = k * codes.length := by
  induction codes with
  | nil => simp
  | cons c cs ih =>
    simp [List.flatMap_cons, toBitsBE_length, ih, Nat.mul_succ]
    omega

/-- The byte stream produced by `pack`, re-read bit by bit, is the code
bit stream followed by the zero padding. -/
lemma pack_bits (codes : List Nat) :
    (pack codes).flatMap (toBitsBE 8)
      = codes.flatMap (toBitsBE 6)
        ++ List.replicate ((8 - (codes.flatMap (toBitsBE 6)).length % 8) % 8) false := by
  unfold pack
  set bits := codes.flatMap (toBitsBE 6) with hbits
  set padded := bits ++ List.replicate ((8 - bits.length % 8) % 8) false with hpadded
  have hdvd : 8 ∣ padded.length := by
    rw [hpadded]
    simp only [List.length_append, List.length_replicate]
    have := Nat.mod_lt bits.length (show 0 < 8 by omega)
    omega
  have hmap : ((chunks 8 padded).map fromBits).flatMap (toBitsBE 8)
      = ((chunks 8 padded).map (fun c => toBitsBE 8 (fromBits c))).flatten := by
    rw [List.flatMap_def, List.map_map]
    rfl
  rw [hmap]
  have hcongr : (chunks 8 padded).map (fun c => toBitsBE 8 (fromBits c))
      = (chunks 8 padded).map id := by
    refine List.map_congr_left (fun c hc => ?_)
    have hlen : c.length = 8 := chunks_length_of_dvd 8 (by omega) padded hdvd c hc
    have := toBitsBE_fromBits c
    rw [hlen] at this
    simpa using this
  rw [hcongr, List.map_id, chunks_flatten 8 (by omega)]

lemma fromBits_replicate_false (n : Nat) : fromBits (List.replicate n false) = 0 := by
  induction n with
  | zero => rfl
  | succ n ih => simp [List.replicate_succ, fromBits, ih]

lemma card6_lt (c : Card) (h : c.Value ≤ 13) : card6 c ≤ 51 := by
  have := suitPriority_lt_four c.Suit
  unfold card6
  omega

lemma decodeCard_card6 (c : Card) (h1 : 1 ≤ c.Value) : decodeCard (card6 c) = c := by
  unfold decodeCard card6
  have hp := suitPriority_lt_four c.Suit
  have hdiv : ((c.Value - 1) * 4 + suitPriority c.Suit) / 4 = c.Value - 1 := by
    rw [Nat.mul_comm, Nat.mul_add_div (by omega)]
    omega
  have hmod : ((c.Value - 1) * 4 + suitPriority c.Suit) % 4 = suitPriority c.Suit := by
    omega
  rw [hdiv, hmod]
  have hv : c.Value - 1 + 1 = c.Value := by omega
  cases hc : c.Suit <;> simp [hc, suitPriority, hv] <;>
    exact (by cases c; simp_all)

/-- Reading the card groups of one row appends the row to the open
current row of the decoder. -/
lemma parseGroups_cards (r : Row) (rest : List (List Bool)) (st : DecodeSt)
    (hrest : rest ≠ [])
    (hcol : st.cur.length + r.length ≤ 19)
    (hval : ∀ c ∈ r, 1 ≤ c.Value ∧ c.Value ≤ 13) :
    parseGroups ((r.map card6).map (toBitsBE 6) ++ rest) st
      = parseGroups rest ⟨st.done, st.cur ++ r⟩ := by
  induction r generalizing st with
  | nil => simp
  | cons c cs ih =>
    have hc := hval c (by simp)
    have hlt : card6 c < 2 ^ 6 := by
      have := card6_lt c hc.2
      omega
    have hv : fromBits (toBitsBE 6 (card6 c)) = card6 c := by
      rw [fromBits_toBitsBE, Nat.mod_eq_of_lt hlt]
    simp only [List.map_cons, List.cons_append]
    rw [parseGroups]
    simp only [toBitsBE_length, hv]
    have hne : ((cs.map card6).map (toBitsBE 6) ++ rest) ≠ [] := by
      intro h
      rcases List.append_eq_nil.mp h with ⟨_, h2⟩
      exact hrest h2
    have hnotz : ¬ (card6 c = 0 ∧ (cs.map card6).map (toBitsBE 6) ++ rest = []) := by
      intro h
      exact hne h.2
    have hnot63 : card6 c ≠ 63 := by
      have := card6_lt c hc.2
      omega
    have hcollt : ¬ 19 ≤ st.cur.length := by
      simp only [List.length_cons] at hcol
      omega
    simp only [if_neg (by omega : ¬ (6 : Nat) < 6), hnotz, if_false, hnot63, hcollt]
    rw [decodeCard_card6 c hc.1]
    rw [ih ⟨st.done, st.cur ++ [c]⟩ (by simp at hcol ⊢; omega) (fun x hx => hval x (by simp [hx]))]
    simp

lemma fromBits_toBitsBE_63 : fromBits (toBitsBE 6 63) = 63 := by decide

/-- The final padding group ends the decode cleanly. -/
lemma parseGroups_pad (st : DecodeSt) :
    parseGroups [List.replicate 6 false] st = .ok (finishRows st) := by
  simp only [parseGroups, List.length_replicate]
  rw [if_neg (by omega), if_pos ⟨fromBits_replicate_false 6, trivial⟩]

/-- A delimiter group closes the current row. -/
lemma parseGroups_delim (rest : List (List Bool)) (st : DecodeSt)
    (hrow : st.done.length + 1 < 8) :
    parseGroups (toBitsBE 6 63 :: rest) st
      = parseGroups rest ⟨st.done ++ [st.cur], []⟩ := by
  rw [parseGroups]
  simp only [toBitsBE_length, fromBits_toBitsBE_63]
  rw [if_neg (by omega)]
  rw [if_neg (by simp), if_pos trivial, if_neg (by omega)]

/-- Reading the full code stream of a non-empty row list, terminated by
the all-zero padding group, reconstructs the rows (plus the rows the
decoder never touches, which stay empty). -/
lemma parseGroups_rows :
    ∀ (rs : List Row) (st : DecodeSt), rs ≠ [] →
      st.done.length + rs.length ≤ 8 →
      st.cur = [] →
      (∀ r ∈ rs, r.length ≤ 19) →
      (∀ r ∈ rs, ∀ c ∈ r, 1 ≤ c.Value ∧ c.Value ≤ 13) →
      parseGroups ((hashCodes rs).map (toBitsBE 6) ++ [List.replicate 6 false]) st
        = .ok (st.done ++ rs ++ List.replicate (8 - st.done.length - rs.length) [])
  | [], _, hne, _, _, _, _ => absurd rfl hne
  | [r], st, _, hcnt, hcur, hlen, hval => by
    rw [show hashCodes [r] = r.map card6 from rfl]
    rw [parseGroups_cards r _ st (by simp) (by simp [hcur, hlen r (by simp)])
      (fun c hc => hval r (by simp) c hc)]
    rw [parseGroups_pad]
    unfold finishRows
    simp only [hcur, List.nil_append]
    simp only [List.length_cons, List.length_nil] at hcnt
    have h7 : 7 - st.done.length = 8 - st.done.length - 1 := by omega
    rw [h7]
    simp
  | r :: r' :: rs, st, _, hcnt, hcur, hlen, hval => by
    rw [show hashCodes (r :: r' :: rs) = r.map card6 ++ 63 :: hashCodes (r' :: rs) from rfl]
    rw [List.map_append, List.map_cons, List.append_assoc, List.cons_append]
    rw [parseGroups_cards r _ st (by simp)
      (by simp [hcur, hlen r (by simp)]) (fun c hc => hval r (by simp) c hc)]
    simp only [List.length_cons] at hcnt
    rw [parseGroups_delim _ ⟨st.done, st.cur ++ r⟩ (by simp; omega)]
    rw [parseGroups_rows (r' :: rs) ⟨st.done ++ [st.cur ++ r], []⟩ (by simp)
      (by simp; omega) rfl (fun x hx => hlen x (List.mem_cons_of_mem _ hx))
      (fun x hx => hval x (List.mem_cons_of_mem _ hx))]
    simp only [hcur, List.nil_append, List.length_append, List.length_cons,
      List.length_nil]
    congr 1
    have hrep : (8 : Nat) - (st.done.length + (0 + 1)) - (rs.length + 1)
        = 8 - st.done.length - (rs.length + 1 + 1) := by omega
    rw [hrep, List.append_assoc st.done [r], List.singleton_append]

lemma hashCodes_length :
    ∀ (rs : List Row), rs ≠ [] →
      (hashCodes rs).length = (rs.map List.length).sum + rs.length - 1
  | [], h => absurd rfl h
  | [r], _ => by simp [hashCodes]
  | r :: r' :: rs, _ => by
    rw [show hashCodes (r :: r' :: rs) = r.map card6 ++ 63 :: hashCodes (r' :: rs) from rfl]
    simp only [List.length_append, List.length_map, List.length_cons,
      hashCodes_length (r' :: rs) (by simp), List.map_cons, List.sum_cons]
    omega

lemma chunks_ne_nil (k : Nat) (l : List Bool) (h : l ≠ []) : chunks k l ≠ [] := by
  rcases l with _ | ⟨x, xs⟩
  · exact absurd rfl h
  · simp [chunks, chunksF]

lemma NormalizeRows_idem (l : List (List Card)) (hnd : l.flatten.Nodup) :
    NormalizeRows (NormalizeRows l) = NormalizeRows l :=
  NormalizeRows_eq_of_perm (NormalizeRows_perm l)
    (((NormalizeRows_perm l).flatten.nodup_iff).mpr hnd)

/-- A final card group with a nonzero code is decoded as a card; only a
zero group at the very end of the data is consumed as padding. -/
lemma parseGroups_last_card (c : Card) (st : DecodeSt)
    (hcol : st.cur.length < 19) (hc1 : 1 ≤ c.Value) (hc13 : c.Value ≤ 13)
    (hc0 : card6 c ≠ 0) :
    parseGroups [toBitsBE 6 (card6 c)] st
      = .ok (finishRows ⟨st.done, st.cur ++ [c]⟩) := by
  have hlt : card6 c < 2 ^ 6 := by
    have := card6_lt c hc13
    omega
  have hv : fromBits (toBitsBE 6 (card6 c)) = card6 c := by
    rw [fromBits_toBitsBE, Nat.mod_eq_of_lt hlt]
  have hnotz : ¬ (card6 c = 0 ∧ ([] : List (List Bool)) = []) := fun h => hc0 h.1
  have hnot63 : card6 c ≠ 63 := by
    have := card6_lt c hc13
    omega
  have hcollt : ¬ 19 ≤ st.cur.length := by omega
  rw [parseGroups]
  simp only [toBitsBE_length, hv]
  simp only [if_neg (by omega : ¬ (6 : Nat) < 6), hnotz, if_false, hnot63, hcollt]
  rw [decodeCard_card6 c hc1]
  rw [if_neg (fun h => hc0 h.1)]
  rfl

/-- Reading the full code stream of a non-empty row list that ends the
data with no padding group: provided the final 6-bit code is not 0 (it
is a row delimiter, or a card other than the ace of hearts), the decoder
reconstructs the rows. -/
lemma parseGroups_rows_noterm :
    ∀ (rs : List Row) (st : DecodeSt), rs ≠ [] →
      st.done.length + rs.length ≤ 8 →
      st.cur = [] →
      (∀ r ∈ rs, r.length ≤ 19) →
      (∀ r ∈ rs, ∀ c ∈ r, 1 ≤ c.Value ∧ c.Value ≤ 13) →
      (hashCodes rs).getLast? ≠ some 0 →
      parseGroups ((hashCodes rs).map (toBitsBE 6)) st
        = .ok (st.done ++ rs ++ List.replicate (8 - st.done.length - rs.length) [])
  | [], _, hne, _, _, _, _, _ => absurd rfl hne
  | [r], st, _, hcnt, hcur, hlen, hval, hlast => by
    rw [show hashCodes [r] = r.map card6 from rfl] at hlast ⊢
    rcases List.eq_nil_or_concat r with hr | ⟨r', c, hr⟩
    · subst hr
      show Except.ok (finishRows st) = _
      unfold finishRows
      simp only [hcur]
      simp only [List.length_cons, List.length_nil] at hcnt
      have h7 : 7 - st.done.length = 8 - st.done.length - 1 := by omega
      rw [h7]
      simp
    · simp only [List.concat_eq_append] at hr
      subst hr
      have hcv : 1 ≤ c.Value ∧ c.Value ≤ 13 :=
        hval (r' ++ [c]) (by simp) c (by simp)
      have hc0 : card6 c ≠ 0 := by
        intro h0
        apply hlast
        rw [List.map_append, List.map_singleton, List.getLast?_concat, h0]
      have hrlen : r'.length + 1 ≤ 19 := by
        have := hlen (r' ++ [c]) (by simp)
        simpa using this
      have hsplit : ((r' ++ [c]).map card6).map (toBitsBE 6)
          = ((r'.map card6).map (toBitsBE 6)) ++ [toBitsBE 6 (card6 c)] := by
        simp
      rw [hsplit]
      rw [parseGroups_cards r' [toBitsBE 6 (card6 c)] st (by simp)
        (by simp [hcur]; omega)
        (fun x hx => hval (r' ++ [c]) (by simp) x (by simp [hx]))]
      rw [parseGroups_last_card c ⟨st.done, st.cur ++ r'⟩
        (by simp [hcur]; omega) hcv.1 hcv.2 hc0]
      unfold finishRows
      simp only [hcur, List.nil_append]
      simp only [List.length_cons, List.length_nil] at hcnt
      have h7 : 7 - st.done.length = 8 - st.done.length - 1 := by omega
      rw [h7]
      simp
  | r :: r' :: rs, st, _, hcnt, hcur, hlen, hval, hlast => by
    rw [show hashCodes (r :: r' :: rs) = r.map card6 ++ 63 :: hashCodes (r' :: rs)
      from rfl] at hlast ⊢
    rw [List.map_append, List.map_cons]
    rw [parseGroups_cards r _ st (by simp)
      (by simp [hcur, hlen r (by simp)]) (fun c hc => hval r (by simp) c hc)]
    simp only [List.length_cons] at hcnt
    rw [parseGroups_delim _ ⟨st.done, st.cur ++ r⟩ (by simp; omega)]
    have hlast' : (hashCodes (r' :: rs)).getLast? ≠ some 0 := by
      rcases ht : hashCodes (r' :: rs) with _ | ⟨a, t⟩
      · simp
      · rw [ht, List.getLast?_append, List.getLast?_cons_cons] at hlast
        intro h0
        rw [h0] at hlast
        exact hlast rfl
    rw [parseGroups_rows_noterm (r' :: rs) ⟨st.done ++ [st.cur ++ r], []⟩ (by simp)
      (by simp; omega) rfl (fun x hx => hlen x (List.mem_cons_of_mem _ hx))
      (fun x hx => hval x (List.mem_cons_of_mem _ hx)) hlast']
    simp only [hcur, List.nil_append, List.length_append, List.length_cons,
      List.length_nil]
    congr 1
    have hrep : (8 : Nat) - (st.done.length + (0 + 1)) - (rs.length + 1)
        = 8 - st.done.length - (rs.length + 1 + 1) := by omega
    rw [hrep, List.append_assoc st.done [r], List.singleton_append]

/-- C2 (amended): decode∘encode round-trips on the well-formed
GameStates whose number of cards in the rows is congruent to 0 or 1
modulo 4 — with, in the 1 mod 4 case, the proviso that the final 6-bit
code of the serialization is not 0 (it is 0 exactly when all eight
normalized rows are non-empty and the last one ends in the ace of
hearts, whose code the decoder then consumes as end-of-data).  This
includes every full 52-card layout.  For such a state `FromHash (Hash
g)` succeeds, the result is `Equals`-equivalent to `g`, and re-encoding
yields the identical byte string.  (For 2 or 3 cards mod 4 the decoder
rejects its own encoder's 2 or 4 padding bits; see the counterexample.) -/
theorem FromHash_Hash_roundtrip (g : StreetsGame)
    (h8 : g.Rows.length = 8)
    (hlen : ∀ r ∈ g.Rows, r.length ≤ 19)
    (hval : ∀ r ∈ g.Rows, ∀ c ∈ r, 1 ≤ c.Value ∧ c.Value ≤ 13)
    (hnodup : g.Rows.flatten.Nodup)
    (hmod : CountCardsInRows g % 4 = 0
      ∨ (CountCardsInRows g % 4 = 1
         ∧ (hashCodes (NormalizeRows g.Rows)).getLast? ≠ some 0)) :
    ∃ g', FromHash (Hash g) = .ok g' ∧ Equals g g' = true ∧ Hash g' = Hash g := by
  have hperm : (NormalizeRows g.Rows).Perm g.Rows := NormalizeRows_perm g.Rows
  set rs := NormalizeRows g.Rows with hrs
  have h8' : rs.length = 8 := hperm.length_eq.trans h8
  have hlen' : ∀ r ∈ rs, r.length ≤ 19 := fun r hr => hlen r (hperm.mem_iff.mp hr)
  have hval' : ∀ r ∈ rs, ∀ c ∈ r, 1 ≤ c.Value ∧ c.Value ≤ 13 :=
    fun r hr => hval r (hperm.mem_iff.mp hr)
  have hnd' : rs.flatten.Nodup := ((hperm.flatten).nodup_iff).mpr hnodup
  have hsum : (rs.map List.length).sum = CountCardsInRows g := by
    unfold CountCardsInRows
    exact (hperm.map List.length).sum_eq
  have hrsne : rs ≠ [] := by
    intro h
    rw [h] at h8'
    simp at h8'
  have hL : (hashCodes rs).length = CountCardsInRows g + 7 := by
    rw [hashCodes_length rs hrsne, hsum, h8']
    omega
  have hHash : Hash g = pack (hashCodes rs) := rfl
  have hne : Hash g ≠ [] := by
    rw [hHash]
    unfold pack
    intro h
    have h2 := List.map_eq_nil_iff.mp h
    refine chunks_ne_nil 8 _ ?_ h2
    intro h3
    have := congrArg List.length h3
    simp only [List.length_append, List.length_nil, length_flatMap_toBitsBE] at this
    omega
  have key : ∃ gl, chunks 6 ((Hash g).flatMap (toBitsBE 8)) = gl
      ∧ parseGroups gl ⟨[], []⟩ = .ok rs := by
    rcases hmod with hmod | ⟨hmod, hlast⟩
    · have hLmod : (hashCodes rs).length % 4 = 3 := by omega
      have hpad : (8 - ((hashCodes rs).flatMap (toBitsBE 6)).length % 8) % 8 = 6 := by
        rw [length_flatMap_toBitsBE]
        omega
      have hbits : (Hash g).flatMap (toBitsBE 8)
          = (hashCodes rs).flatMap (toBitsBE 6) ++ List.replicate 6 false := by
        rw [hHash, pack_bits, hpad]
      refine ⟨(hashCodes rs).map (toBitsBE 6) ++ [List.replicate 6 false], ?_, ?_⟩
      · rw [hbits, chunks_flatMap 6 (by omega) (toBitsBE 6) (toBitsBE_length 6)]
        congr 1
      · rw [parseGroups_rows rs ⟨[], []⟩ hrsne (by simp [h8']) rfl hlen' hval']
        simp [h8']
    · have hLmod : (hashCodes rs).length % 4 = 0 := by omega
      have hpad : (8 - ((hashCodes rs).flatMap (toBitsBE 6)).length % 8) % 8 = 0 := by
        rw [length_flatMap_toBitsBE]
        omega
      have hbits : (Hash g).flatMap (toBitsBE 8)
          = (hashCodes rs).flatMap (toBitsBE 6) := by
        rw [hHash, pack_bits, hpad]
        simp
      refine ⟨(hashCodes rs).map (toBitsBE 6), ?_, ?_⟩
      · rw [hbits]
        have hcf := chunks_flatMap 6 (by omega) (toBitsBE 6) (toBitsBE_length 6)
          (hashCodes rs) []
        simpa [chunks_nil] using hcf
      · rw [parseGroups_rows_noterm rs ⟨[], []⟩ hrsne (by simp [h8']) rfl
          hlen' hval' hlast]
        simp [h8']
  rcases key with ⟨gl, hchunks, hparse⟩
  refine ⟨⟨rs⟩, ?_, ?_, ?_⟩
  · unfold FromHash
    rw [if_neg hne, hchunks, hparse]
    rfl
  · unfold Equals
    have : NormalizeRows rs = rs := by
      rw [hrs]
      exact NormalizeRows_idem g.Rows hnodup
    simp only [this]
    exact beq_self_eq_true rs
  · show pack (hashCodes (NormalizeRows rs)) = Hash g
    rw [hrs, NormalizeRows_idem g.Rows hnodup, hHash]

/-- C2 counterexample: a well-formed GameState (two cards, king and
queen of hearts, in one row; all other cards on the foundations) whose
encoding `FromHash` itself cannot decode — it fails with the
incomplete-card ParseError because the 2 leftover padding bits are
rejected, so `decode(encode(s))` does not reconstruct `s`. -/
theorem FromHash_Hash_roundtrip_cex :
    FromHash (Hash ⟨[[⟨13, .H⟩, ⟨12, .H⟩], [], [], [], [], [], [], []]⟩)
      = .error .incompleteCard := by rfl

/-! ### Decoder error analysis (C8) -/

/-- Full 6-bit groups carrying the row delimiter value 63. -/
def delimCount (gl : List (List Bool)) : Nat :=
  (gl.filter (fun g => decide (6 ≤ g.length) && decide (fromBits g = 63))).length

lemma parseGroups_short :
    ∀ (gl : List (List Bool)) (st : DecodeSt), (∃ g ∈ gl, g.length < 6) →
      ∃ e, parseGroups gl st = .error e
  | [], _, h => by
    rcases h with ⟨g, hg, _⟩
    simp at hg
  | g :: rest, st, h => by
    simp only [parseGroups]
    by_cases hg : g.length < 6
    · exact ⟨.incompleteCard, by rw [if_pos hg]⟩
    · rcases h with ⟨g', hg', hlt⟩
      have hg'rest : g' ∈ rest := by
        rcases List.mem_cons.mp hg' with h1 | h1
        · exact absurd (h1 ▸ hlt) hg
        · exact h1
      have hrest : rest ≠ [] := List.ne_nil_of_mem hg'rest
      rw [if_neg hg, if_neg (fun hc => hrest hc.2)]
      by_cases h63 : fromBits g = 63
      · rw [if_pos h63]
        by_cases hrow : 8 ≤ st.done.length + 1
        · exact ⟨.tooManyRows, by rw [if_pos hrow]⟩
        · rw [if_neg hrow]
          exact parseGroups_short rest _ ⟨g', hg'rest, hlt⟩
      · rw [if_neg h63]
        by_cases hcol : 19 ≤ st.cur.length
        · exact ⟨_, by rw [if_pos hcol]⟩
        · rw [if_neg hcol]
          exact parseGroups_short rest _ ⟨g', hg'rest, hlt⟩

lemma parseGroups_delims :
    ∀ (gl : List (List Bool)) (st : DecodeSt), st.done.length ≤ 7 →
      8 - st.done.length ≤ delimCount gl →
      ∃ e, parseGroups gl st = .error e
  | [], st, hd, hc => by
    unfold delimCount at hc
    simp at hc
    omega
  | g :: rest, st, hd, hc => by
    simp only [parseGroups]
    by_cases hg : g.length < 6
    · exact ⟨.incompleteCard, by rw [if_pos hg]⟩
    · rw [if_neg hg]
      by_cases hend : fromBits g = 0 ∧ rest = []
      · exfalso
        unfold delimCount at hc
        rw [hend.2] at hc
        simp only [List.filter_cons] at hc
        rw [if_neg (by simp [hend.1])] at hc
        simp at hc
        omega
      · rw [if_neg hend]
        by_cases h63 : fromBits g = 63
        · rw [if_pos h63]
          by_cases hrow : 8 ≤ st.done.length + 1
          · exact ⟨.tooManyRows, by rw [if_pos hrow]⟩
          · rw [if_neg hrow]
            refine parseGroups_delims rest _ (by simp; omega) ?_
            unfold delimCount at hc ⊢
            simp only [List.filter_cons] at hc
            rw [if_pos (by simp [h63]; omega)] at hc
            simp only [List.length_cons, List.length_append, List.length_nil] at hc ⊢
            omega
        · rw [if_neg h63]
          by_cases hcol : 19 ≤ st.cur.length
          · exact ⟨_, by rw [if_pos hcol]⟩
          · rw [if_neg hcol]
            refine parseGroups_delims rest _ (by simpa using hd) ?_
            unfold delimCount at hc ⊢
            simp only [List.filter_cons] at hc
            rw [if_neg (by simp [h63])] at hc
            simpa using hc

lemma parseGroups_run :
    ∀ (run : List (List Bool)) (post : List (List Bool)) (st : DecodeSt),
      post ≠ [] → (∀ g ∈ run, 6 ≤ g.length ∧ fromBits g ≠ 63) →
      st.cur.length ≤ 19 → 20 ≤ run.length + st.cur.length →
      ∃ e, parseGroups (run ++ post) st = .error e
  | [], _, st, _, _, hcur, hsum => by
    simp at hsum
    omega
  | g :: run', post, st, hpost, hfull, hcur, hsum => by
    simp only [List.cons_append, parseGroups]
    have hg := hfull g (by simp)
    rw [if_neg (by omega)]
    have hne : run' ++ post ≠ [] := by
      intro h
      exact hpost (List.append_eq_nil.mp h).2
    rw [if_neg (fun hc => hne hc.2), if_neg hg.2]
    by_cases hcol : 19 ≤ st.cur.length
    · exact ⟨_, by rw [if_pos hcol]⟩
    · rw [if_neg hcol]
      refine parseGroups_run run' post _ hpost (fun x hx => hfull x (by simp [hx])) ?_ ?_
      · simp
        omega
      · simp only [List.length_append, List.length_cons] at hsum ⊢
        simp
        omega

/-- Processing any prefix either errors or reaches the guaranteed-error
suffix with a still-bounded current row. -/
lemma parseGroups_pre :
    ∀ (pre rest : List (List Bool)) (st : DecodeSt), st.cur.length ≤ 19 → rest ≠ [] →
      (∀ st' : DecodeSt, st'.cur.length ≤ 19 → ∃ e, parseGroups rest st' = .error e) →
      ∃ e, parseGroups (pre ++ rest) st = .error e
  | [], rest, st, hcur, _, hrest => hrest st hcur
  | g :: pre', rest, st, hcur, hne, hrest => by
    simp only [List.cons_append, parseGroups]
    by_cases hg : g.length < 6
    · exact ⟨.incompleteCard, by rw [if_pos hg]⟩
    · rw [if_neg hg]
      have hne2 : pre' ++ rest ≠ [] := by
        intro h
        exact hne (List.append_eq_nil.mp h).2
      rw [if_neg (fun hc => hne2 hc.2)]
      by_cases h63 : fromBits g = 63
      · rw [if_pos h63]
        by_cases hrow : 8 ≤ st.done.length + 1
        · exact ⟨.tooManyRows, by rw [if_pos hrow]⟩
        · rw [if_neg hrow]
          exact parseGroups_pre pre' rest _ (by simp) hne hrest
      · rw [if_neg h63]
        by_cases hcol : 19 ≤ st.cur.length
        · exact ⟨_, by rw [if_pos hcol]⟩
        · rw [if_neg hcol]
          exact parseGroups_pre pre' rest _ (by simp; omega) hne hrest

lemma chunksF_exists_short (k : Nat) (hk : 0 < k) :
    ∀ (fuel : Nat) (l : List Bool), l.length ≤ fuel → ¬ k ∣ l.length →
      ∃ g ∈ chunksF k fuel l, g.length < k
  | 0, l, h, hd => by
    have : l = [] := List.eq_nil_of_length_eq_zero (by omega)
    subst this
    simp at hd
  | fuel + 1, [], _, hd => by simp at hd
  | fuel + 1, x :: xs, h, hd => by
    by_cases hlen : (x :: xs).length < k
    · refine ⟨(x :: xs).take k, by simp [chunksF], ?_⟩
      rw [List.take_of_length_le (by omega)]
      exact hlen
    · have hd' : ¬ k ∣ ((x :: xs).drop k).length := by
        simp only [List.length_drop]
        intro hdvd
        exact hd (by
          have : (x :: xs).length = ((x :: xs).length - k) + k := by omega
          rw [this]
          exact Nat.dvd_add hdvd (dvd_refl k))
      obtain ⟨g, hg, hglen⟩ := chunksF_exists_short k hk fuel ((x :: xs).drop k)
        (by simp only [List.length_drop]; simp only [List.length_cons] at h ⊢; omega) hd'
      exact ⟨g, by simp [chunksF, hg], hglen⟩

lemma chunks_exists_short (k : Nat) (hk : 0 < k) (l : List Bool)
    (hd : ¬ k ∣ l.length) : ∃ g ∈ chunks k l, g.length < k :=
  chunksF_exists_short k hk l.length l (Nat.le_refl _) hd

lemma FromHash_error_of_parse (bytes : List Nat) (hb : bytes ≠ [])
    (h : ∃ e, parseGroups (chunks 6 (bytes.flatMap (toBitsBE 8))) ⟨[], []⟩ = .error e) :
    ∃ e, FromHash bytes = .error e := by
  rcases h with ⟨e, he⟩
  refine ⟨e, ?_⟩
  unfold FromHash
  rw [if_neg hb, he]
  rfl

/-- C8: `FromHash` reports a ParseError, never a silently recovered
state, on each malformed input class: (1) the empty byte stream; (2) a
stream truncated mid-card, i.e. whose bit length is not a multiple of 6,
so a partial group remains; (3) a stream carrying 8 or more row
delimiters (more than the fixed 8 columns); (4) a stream in which 20
consecutive card groups (more than the 19-card column capacity) are
followed by further data. -/
theorem FromHash_errors (bytes : List Nat) :
    (bytes = [] → FromHash bytes = .error .emptyHash) ∧
    (bytes ≠ [] → (8 * bytes.length) % 6 ≠ 0 → ∃ e, FromHash bytes = .error e) ∧
    (bytes ≠ [] → 8 ≤ delimCount (chunks 6 (bytes.flatMap (toBitsBE 8))) →
      ∃ e, FromHash bytes = .error e) ∧
    (∀ pre run post, bytes ≠ [] →
      chunks 6 (bytes.flatMap (toBitsBE 8)) = pre ++ run ++ post →
      run.length = 20 → (∀ g ∈ run, 6 ≤ g.length ∧ fromBits g ≠ 63) → post ≠ [] →
      ∃ e, FromHash bytes = .error e) := by
  refine ⟨fun h => by rw [h]; rfl, ?_, ?_, ?_⟩
  · intro hb hmod
    refine FromHash_error_of_parse bytes hb ?_
    refine parseGroups_short _ _ ?_
    refine chunks_exists_short 6 (by omega) _ ?_
    rw [length_flatMap_toBitsBE]
    omega
  · intro hb hdel
    refine FromHash_error_of_parse bytes hb ?_
    exact parseGroups_delims _ ⟨[], []⟩ (by simp) (by simpa using hdel)
  · intro pre run post hb hsplit hrun hfull hpost
    refine FromHash_error_of_parse bytes hb ?_
    rw [hsplit, List.append_assoc]
    refine parseGroups_pre pre (run ++ post) ⟨[], []⟩ (by simp) ?_ ?_
    · intro h
      exact hpost (List.append_eq_nil.mp h).2
    · intro st' hst'
      exact parseGroups_run run post st' hpost hfull hst' (by omega)

set_option maxRecDepth 8000 in
/-- Witness for C8: one concrete byte stream per error class. -/
theorem FromHash_errors_witness :
    FromHash [] = .error .emptyHash
    ∧ (∃ e, FromHash [0] = .error e)
    ∧ (∃ e, FromHash (List.replicate 6 255) = .error e)
    ∧ (∃ e, FromHash (List.replicate 18 0) = .error e) :=
  ⟨(FromHash_errors []).1 rfl,
   (FromHash_errors [0]).2.1 (by decide) (by decide),
   (FromHash_errors (List.replicate 6 255)).2.2.1 (by decide) (by decide),
   (FromHash_errors (List.replicate 18 0)).2.2.2
     [] (List.replicate 20 (List.replicate 6 false)) (List.replicate 4 (List.replicate 6 false))
     (by decide) (by decide) (by decide) (by decide) (by decide)⟩

/-- Witness for the amended C2: a four-card state (cards ≡ 0 mod 4) and
a one-card state (cards ≡ 1 mod 4, so the byte stream has no padding
bits and ends on a row delimiter) both round-trip. -/
theorem FromHash_Hash_roundtrip_witness :
    (∃ g', FromHash (Hash ⟨[[⟨13, .H⟩, ⟨12, .H⟩], [⟨13, .S⟩, ⟨12, .S⟩], [], [], [], [], [], []]⟩)
        = .ok g'
      ∧ Equals ⟨[[⟨13, .H⟩, ⟨12, .H⟩], [⟨13, .S⟩, ⟨12, .S⟩], [], [], [], [], [], []]⟩ g' = true
      ∧ Hash g' = Hash ⟨[[⟨13, .H⟩, ⟨12, .H⟩], [⟨13, .S⟩, ⟨12, .S⟩], [], [], [], [], [], []]⟩)
    ∧ (∃ g', FromHash (Hash ⟨[[⟨1, .S⟩], [], [], [], [], [], [], []]⟩) = .ok g'
      ∧ Equals ⟨[[⟨1, .S⟩], [], [], [], [], [], [], []]⟩ g' = true
      ∧ Hash g' = Hash ⟨[[⟨1, .S⟩], [], [], [], [], [], [], []]⟩) :=
  ⟨FromHash_Hash_roundtrip _ (by decide) (by decide) (by decide) (by decide) (by decide),
   FromHash_Hash_roundtrip _ (by decide) (by decide) (by decide) (by decide) (by decide)⟩

/-! ### Legal move generation and application (streets_and_alleys.go) -/

/-- `Foundation` sentinel destination. -/
def Foundation : Int := -1

/-- `Move` from streets_and_alleys.go. -/
structure Move where
  From : Nat
  To : Int
deriving DecidableEq, Repr

/-- `getLowestRemainingCards` from streets_and_alleys.go, per suit: the
lowest value of that suit present in any row, 14 when absent. -/
def getLowestRemainingCards (g : StreetsGame) (s : Suit) : Nat :=
  g.Rows.flatten.foldl
    (fun acc c => if c.Suit = s ∧ c.Value < acc then c.Value else acc) 14

/-- The `emptyRow` scan of `generateLegalMoves`: first row whose
`getLastCard` finds no card. -/
def firstEmptyRow (g : StreetsGame) : Option Nat :=
  (List.range 8).find? (fun row => (g.Rows.getD row []).getLast?.isNone)

/-- The moves `generateLegalMoves` emits for one source row: a
foundation move when the top card is the lowest of its suit, a move to
the first empty row, and a move onto every top card exactly one rank
higher. -/
def movesFrom (g : StreetsGame) (emptyRow : Option Nat) (fromRow : Nat) : List Move :=
  match (g.Rows.getD fromRow []).getLast? with
  | none => []
  | some card =>
    (if card.Value = getLowestRemainingCards g card.Suit
      then [⟨fromRow, Foundation⟩] else [])
    ++ (match emptyRow with
        | some e => if e ≠ fromRow then [⟨fromRow, (e : Int)⟩] else []
        | none => [])
    ++ ((List.range 8).filterMap (fun toRow =>
        if fromRow = toRow then none
        else match (g.Rows.getD toRow []).getLast? with
          | none => none
          | some target =>
            if card.Value + 1 = target.Value then some ⟨fromRow, (toRow : Int)⟩
            else none))

/-- `generateLegalMoves` from streets_and_alleys.go. -/
def generateLegalMoves (g : StreetsGame) : List Move :=
  (List.range 8).flatMap (movesFrom g (firstEmptyRow g))

/-- The two failure cases of `applyMove`. -/
inductive ApplyErr where
  | sourceEmpty
  | destFull
deriving DecidableEq, Repr

/-- `applyMove` from streets_and_alleys.go: remove the top card of the
source row; for a foundation move that is all, otherwise append the card
to the destination row if one of its 19 slots is free.  On the
destination-full error the returned state has the card already removed,
exactly as the Go code returns its partially modified clone. -/
def applyMove (g : StreetsGame) (move : Move) : StreetsGame × Option ApplyErr :=
  match (g.Rows.getD move.From []).getLast? with
  | none => (g, some .sourceEmpty)
  | some card =>
    let rows1 := g.Rows.set move.From ((g.Rows.getD move.From []).dropLast)
    if move.To = Foundation then (⟨rows1⟩, none)
    else
      let dest := rows1.getD move.To.toNat []
      if dest.length < 19 then (⟨rows1.set move.To.toNat (dest ++ [card])⟩, none)
      else (⟨rows1⟩, some .destFull)

lemma movesFrom_none {g : StreetsGame} {fr : Nat} (er : Option Nat)
    (h : (g.Rows.getD fr []).getLast? = none) : movesFrom g er fr = [] := by
  unfold movesFrom
  rw [h]

lemma movesFrom_some {g : StreetsGame} {fr : Nat} {card : Card} (er : Option Nat)
    (h : (g.Rows.getD fr []).getLast? = some card) :
    movesFrom g er fr =
      (if card.Value = getLowestRemainingCards g card.Suit
        then [⟨fr, Foundation⟩] else [])
      ++ ((match er with
          | some e => if e ≠ fr then [⟨fr, (e : Int)⟩] else []
          | none => [])
      ++ ((List.range 8).filterMap (fun toRow =>
          if fr = toRow then none
          else match (g.Rows.getD toRow []).getLast? with
            | none => none
            | some target =>
              if card.Value + 1 = target.Value then some ⟨fr, (toRow : Int)⟩
              else none))) := by
  unfold movesFrom
  rw [h]
  exact List.append_assoc _ _ _

/-- Membership description of `movesFrom`. -/
lemma mem_movesFrom (g : StreetsGame) (er : Option Nat) (fr : Nat) (m : Move) :
    m ∈ movesFrom g er fr ↔
      ∃ card, (g.Rows.getD fr []).getLast? = some card ∧ m.From = fr ∧
        ((m.To = Foundation ∧ card.Value = getLowestRemainingCards g card.Suit)
         ∨ (∃ e, er = some e ∧ e ≠ fr ∧ m.To = (e : Int))
         ∨ (∃ t : Nat, t < 8 ∧ fr ≠ t ∧ m.To = (t : Int) ∧
            ∃ target, (g.Rows.getD t []).getLast? = some target
              ∧ card.Value + 1 = target.Value)) := by
  cases hc : (g.Rows.getD fr []).getLast? with
  | none =>
    rw [movesFrom_none er hc]
    simp [hc]
  | some card =>
    rw [movesFrom_some er hc]
    constructor
    · intro h
      rcases List.mem_append.mp h with h1 | h23
      · by_cases hlow : card.Value = getLowestRemainingCards g card.Suit
        · rw [if_pos hlow] at h1
          have hm : m = ⟨fr, Foundation⟩ := by simpa using h1
          subst hm
          exact ⟨card, rfl, rfl, Or.inl ⟨rfl, hlow⟩⟩
        · rw [if_neg hlow] at h1
          simp at h1
      · rcases List.mem_append.mp h23 with h2 | h3
        · rcases her : er with _ | e
          · rw [her] at h2
            simp at h2
          · rw [her] at h2
            by_cases hef : e ≠ fr
            · have hm : m = ⟨fr, (e : Int)⟩ := by simpa [hef] using h2
              subst hm
              exact ⟨card, rfl, rfl, Or.inr (Or.inl ⟨e, rfl, hef, rfl⟩)⟩
            · simp [hef] at h2
        · rcases List.mem_filterMap.mp h3 with ⟨t, htr, hin⟩
          have ht : t < 8 := List.mem_range.mp htr
          by_cases hft : fr = t
          · rw [if_pos hft] at hin
            exact Option.noConfusion hin
          · rw [if_neg hft] at hin
            cases hd : (g.Rows.getD t []).getLast? with
            | none =>
              rw [hd] at hin
              simp at hin
            | some target =>
              rw [hd] at hin
              by_cases hv : card.Value + 1 = target.Value
              · have hm : m = ⟨fr, (t : Int)⟩ := by
                  simp only [hv, if_pos, Option.some.injEq] at hin
                  simpa [hv] using hin.symm
                subst hm
                exact ⟨card, rfl, rfl, Or.inr (Or.inr ⟨t, ht, hft, rfl, target, hd, hv⟩)⟩
              · simp [hv] at hin
    · rintro ⟨card', hcard', hfr, hdis⟩
      injection hcard' with hcc
      subst hcc
      rcases m with ⟨mf, mt⟩
      simp only [] at hfr
      subst hfr
      rcases hdis with ⟨hto, hlow⟩ | ⟨e, her, hef, hto⟩ | ⟨t, ht, hft, hto, target, htar, hv⟩
      all_goals simp only [] at hto
      all_goals subst hto
      · refine List.mem_append.mpr (Or.inl ?_)
        rw [if_pos hlow]
        simp
      · refine List.mem_append.mpr (Or.inr (List.mem_append.mpr (Or.inl ?_)))
        subst her
        simp [hef]
      · refine List.mem_append.mpr (Or.inr (List.mem_append.mpr (Or.inr ?_)))
        refine List.mem_filterMap.mpr ⟨t, List.mem_range.mpr ht, ?_⟩
        rw [if_neg hft, htar]
        simp [hv]

lemma mem_generateLegalMoves (g : StreetsGame) (m : Move) :
    m ∈ generateLegalMoves g ↔ m.From < 8 ∧ m ∈ movesFrom g (firstEmptyRow g) m.From := by
  unfold generateLegalMoves
  rw [List.mem_flatMap]
  constructor
  · rintro ⟨fr, hfr, hm⟩
    have := (mem_movesFrom g _ fr m).mp hm
    rcases this with ⟨card, _, hfrm, _⟩
    rw [List.mem_range] at hfr
    rw [hfrm]
    exact ⟨hfr, hm⟩
  · rintro ⟨h8, hm⟩
    exact ⟨m.From, List.mem_range.mpr h8, hm⟩

/-- Value of the exposed top card of a row (0 for an empty row). -/
def topValue (r : Row) : Nat := ((r.getLast?).map Card.Value).getD 0

lemma firstEmptyRow_spec {g : StreetsGame} {e : Nat} (h : firstEmptyRow g = some e) :
    e < 8 ∧ g.Rows.getD e [] = [] := by
  refine ⟨List.mem_range.mp (List.mem_of_find?_eq_some h), ?_⟩
  have hp := List.find?_some h
  simp only [Option.isNone_iff_eq_none, decide_eq_true_eq] at hp
  exact List.getLast?_eq_none_iff.mp hp

lemma getD_set_ne {l : List Row} {i j : Nat} (h : i ≠ j) (a : Row) :
    (l.set i a).getD j [] = l.getD j [] := by
  simp [List.getD, List.getElem?_set_ne h]

lemma getD_mem_or_nil (l : List Row) (i : Nat) : l.getD i [] ∈ l ∨ l.getD i [] = [] := by
  by_cases h : i < l.length
  · left
    rw [List.getD_eq_getElem _ _ h]
    exact l.getElem_mem h
  · right
    exact List.getD_eq_default _ _ (by omega)

/-- C4 (amended, the Go generator): a column-to-column move is generated
iff the source row is non-empty and the destination is either THE first
empty row or a non-empty row whose exposed card is exactly one rank
above the moving card (suit-independent).  In particular no move into an
empty row other than the first is generated.  (The worker generator in
src/utils/solver.js does not implement the first-empty restriction; see
the counterexample.) -/
theorem generateLegalMoves_column_iff (g : StreetsGame) (f t : Nat)
    (hf : f < 8) (ht : t < 8) :
    (⟨f, (t : Int)⟩ : Move) ∈ generateLegalMoves g ↔
      (g.Rows.getD f [] ≠ [] ∧ f ≠ t ∧
        ((g.Rows.getD t [] = [] ∧ firstEmptyRow g = some t)
         ∨ (g.Rows.getD t [] ≠ []
            ∧ topValue (g.Rows.getD f []) + 1 = topValue (g.Rows.getD t [])))) := by
  rw [mem_generateLegalMoves]
  show (f < 8 ∧ _) ↔ _
  rw [mem_movesFrom]
  constructor
  · rintro ⟨-, card, hcard, -, hdis⟩
    have hsrc : g.Rows.getD f [] ≠ [] := by
      intro hnil
      rw [hnil] at hcard
      cases hcard
    rcases hdis with ⟨hto, -⟩ | ⟨e, her, hef, hto⟩ | ⟨t', ht', hft', hto, target, htar, hv⟩
    · exfalso
      simp only [Foundation] at hto
      omega
    · have hto2 : (t : Int) = (e : Int) := hto
      have hte : t = e := by exact_mod_cast hto2
      subst hte
      obtain ⟨-, hempty⟩ := firstEmptyRow_spec her
      exact ⟨hsrc, fun hh => hef (hh ▸ rfl), Or.inl ⟨hempty, her⟩⟩
    · have hto2 : (t : Int) = (t' : Int) := hto
      have htt : t = t' := by exact_mod_cast hto2
      subst htt
      refine ⟨hsrc, hft', Or.inr ⟨?_, ?_⟩⟩
      · intro hnil
        rw [hnil] at htar
        cases htar
      · unfold topValue
        rw [hcard, htar]
        simpa using hv
  · rintro ⟨hsrc, hft, hdis⟩
    obtain ⟨card, hcard⟩ : ∃ c, (g.Rows.getD f []).getLast? = some c := by
      cases hcl : (g.Rows.getD f []).getLast? with
      | none => exact absurd (List.getLast?_eq_none_iff.mp hcl) hsrc
      | some c => exact ⟨c, rfl⟩
    refine ⟨hf, card, hcard, rfl, ?_⟩
    rcases hdis with ⟨hempty, her⟩ | ⟨hne, hv⟩
    · exact Or.inr (Or.inl ⟨t, her, fun hh => hft (hh ▸ rfl), rfl⟩)
    · obtain ⟨target, htar⟩ : ∃ c, (g.Rows.getD t []).getLast? = some c := by
        cases hcl : (g.Rows.getD t []).getLast? with
        | none => exact absurd (List.getLast?_eq_none_iff.mp hcl) hne
        | some c => exact ⟨c, rfl⟩
      refine Or.inr (Or.inr ⟨t, ht, hft, rfl, target, htar, ?_⟩)
      unfold topValue at hv
      rw [hcard, htar] at hv
      simpa using hv

/-- Witness for the amended C4: in a concrete state, the ace moves onto
the 2 and onto the first empty row, but no move targets the second empty
row. -/
theorem generateLegalMoves_column_iff_witness :
    ((⟨1, (0 : Int)⟩ : Move) ∈ generateLegalMoves ⟨[[⟨2, .H⟩], [⟨1, .S⟩], [], [], [], [], [], []]⟩)
    ∧ ((⟨1, (3 : Int)⟩ : Move) ∉ generateLegalMoves ⟨[[⟨2, .H⟩], [⟨1, .S⟩], [], [], [], [], [], []]⟩) :=
  ⟨(generateLegalMoves_column_iff _ 1 0 (by decide) (by decide)).mpr (by decide),
   fun hmem => by
    have := (generateLegalMoves_column_iff _ 1 3 (by decide) (by decide)).mp hmem
    revert this
    decide⟩

lemma applyMove_some {g : StreetsGame} {move : Move} {card : Card}
    (h : (g.Rows.getD move.From []).getLast? = some card) :
    applyMove g move =
      (if move.To = Foundation
        then (⟨g.Rows.set move.From ((g.Rows.getD move.From []).dropLast)⟩, none)
        else if ((g.Rows.set move.From ((g.Rows.getD move.From []).dropLast)).getD
            move.To.toNat []).length < 19
          then (⟨(g.Rows.set move.From ((g.Rows.getD move.From []).dropLast)).set
              move.To.toNat
              (((g.Rows.set move.From ((g.Rows.getD move.From []).dropLast)).getD
                move.To.toNat []) ++ [card])⟩, none)
          else (⟨g.Rows.set move.From ((g.Rows.getD move.From []).dropLast)⟩,
            some .destFull)) := by
  unfold applyMove
  rw [h]

/-- C10 (amended): in a game whose rows hold at most 19 cards each, with
genuine card values (≥ 1), and in which any full 19-card row is topped
by an ace — as holds in every reachable position, since a full row's top
12 cards form a descending run — `applyMove` succeeds on every move that
`generateLegalMoves` produces: the source-empty and destination-full
error branches are unreachable. -/
theorem applyMove_of_generateLegalMoves (g : StreetsGame)
    (hlen : ∀ r ∈ g.Rows, r.length ≤ 19)
    (hval : ∀ r ∈ g.Rows, ∀ c ∈ r, 1 ≤ c.Value)
    (hfull : ∀ r ∈ g.Rows, r.length = 19 → ∀ c, r.getLast? = some c → c.Value = 1)
    (m : Move) (hm : m ∈ generateLegalMoves g) :
    (applyMove g m).2 = none := by
  rw [mem_generateLegalMoves, mem_movesFrom] at hm
  obtain ⟨-, card, hcard, -, hdis⟩ := hm
  rw [applyMove_some hcard]
  rcases hdis with ⟨hto, -⟩ | ⟨e, her, hef, hto⟩ | ⟨t, ht, hft, hto, target, htar, hv⟩
  · rw [if_pos hto]
  · rw [if_neg (by rw [hto]; simp [Foundation])]
    obtain ⟨-, hempty⟩ := firstEmptyRow_spec her
    have htoNat : (m.To).toNat = e := by rw [hto]; simp
    rw [htoNat, getD_set_ne (fun hh => hef hh.symm) _, hempty]
    rw [if_pos (by simp)]
  · rw [if_neg (by rw [hto]; simp [Foundation])]
    have htoNat : (m.To).toNat = t := by rw [hto]; simp
    have hdest : (g.Rows.set m.From ((g.Rows.getD m.From []).dropLast)).getD t []
        = g.Rows.getD t [] := getD_set_ne hft _
    have hdne : g.Rows.getD t [] ≠ [] := by
      intro hnil
      rw [hnil] at htar
      cases htar
    have hdmem : g.Rows.getD t [] ∈ g.Rows := by
      rcases getD_mem_or_nil g.Rows t with h | h
      · exact h
      · exact absurd h hdne
    have hsmem : g.Rows.getD m.From [] ∈ g.Rows := by
      rcases getD_mem_or_nil g.Rows m.From with h | h
      · exact h
      · rw [h] at hcard
        cases hcard
    have hcval : 1 ≤ card.Value :=
      hval _ hsmem card (List.mem_of_mem_getLast? hcard)
    have hdlen : (g.Rows.getD t []).length < 19 := by
      have h19 := hlen _ hdmem
      rcases Nat.lt_or_ge (g.Rows.getD t []).length 19 with h | h
      · exact h
      · exfalso
        have hfull19 : (g.Rows.getD t []).length = 19 := by omega
        have := hfull _ hdmem hfull19 target htar
        omega
    rw [htoNat, hdest]
    rw [if_pos hdlen]

/-- Witness for the amended C10. -/
theorem applyMove_of_generateLegalMoves_witness :
    (applyMove ⟨[[⟨5, .D⟩], [⟨4, .C⟩], [], [], [], [], [], []]⟩ ⟨1, (0 : Int)⟩).2 = none :=
  applyMove_of_generateLegalMoves _ (by decide) (by decide) (by decide) _ (by decide)

/-- C10 counterexample: a legal move whose application fails.  The state
is a valid 52-card partition (row 0 holds the 2–K of spades, the 8–K of
hearts and then the 2 of hearts — 19 cards; row 1 the ace of spades; row
2 the 3–7 of hearts; every other card sits on a foundation: hearts A,
diamonds A–K, clubs A–K).  `generateLegalMoves` offers the ace of spades
onto the 2 of hearts atop the full 19-card row 0, and `applyMove`
returns the destination-full error. -/
theorem applyMove_of_generateLegalMoves_cex :
    ((⟨1, (0 : Int)⟩ : Move) ∈ generateLegalMoves ⟨[
      [⟨2, .S⟩, ⟨3, .S⟩, ⟨4, .S⟩, ⟨5, .S⟩, ⟨6, .S⟩, ⟨7, .S⟩, ⟨8, .S⟩, ⟨9, .S⟩,
       ⟨10, .S⟩, ⟨11, .S⟩, ⟨12, .S⟩, ⟨13, .S⟩,
       ⟨8, .H⟩, ⟨9, .H⟩, ⟨10, .H⟩, ⟨11, .H⟩, ⟨12, .H⟩, ⟨13, .H⟩, ⟨2, .H⟩],
      [⟨1, .S⟩],
      [⟨3, .H⟩, ⟨4, .H⟩, ⟨5, .H⟩, ⟨6, .H⟩, ⟨7, .H⟩],
      [], [], [], [], []]⟩)
    ∧ (applyMove ⟨[
      [⟨2, .S⟩, ⟨3, .S⟩, ⟨4, .S⟩, ⟨5, .S⟩, ⟨6, .S⟩, ⟨7, .S⟩, ⟨8, .S⟩, ⟨9, .S⟩,
       ⟨10, .S⟩, ⟨11, .S⟩, ⟨12, .S⟩, ⟨13, .S⟩,
       ⟨8, .H⟩, ⟨9, .H⟩, ⟨10, .H⟩, ⟨11, .H⟩, ⟨12, .H⟩, ⟨13, .H⟩, ⟨2, .H⟩],
      [⟨1, .S⟩],
      [⟨3, .H⟩, ⟨4, .H⟩, ⟨5, .H⟩, ⟨6, .H⟩, ⟨7, .H⟩],
      [], [], [], [], []]⟩ ⟨1, (0 : Int)⟩).2 = some .destFull := by
  constructor
  · decide
  · decide

end SA

namespace SA

/-! ### Monte-Carlo rollout (mcts, part_003) -/

/-- `maxRolloutLength` from the MCTS source. -/
def maxRolloutLength : Nat := 150

instance : Inhabited Move := ⟨⟨0, 0⟩⟩

/-- The rollout loop of `runMonteCarloSimulation`: while budget remains,
filter the legal moves to those whose successor hash is unseen; if none
remain, reward is the fraction of the 52 cards on the foundations;
otherwise play a pseudo-randomly chosen valid move (the random stream is
abstracted as `oracle`, consumed one index per step, reduced modulo the
number of valid moves exactly like `rand.Intn`).  Exhausting the budget
earns the `+1` bonus.  Go's float64 arithmetic on these small integers
is modelled exactly in `ℚ`. -/
def runSimAux (oracle : Nat → Nat) :
    Nat → StreetsGame → List (List Nat) → List Move → ℚ × List Move
  | 0, g, _, moveHistory =>
    (((52 : ℚ) - CountCardsInRows g + 1) / 52, moveHistory)
  | fuel + 1, g, seen, moveHistory =>
    let validMoves := (generateLegalMoves g).filter
      (fun m => !(seen.contains (Hash (applyMove g m).1)))
    if validMoves = [] then
      (((52 : ℚ) - CountCardsInRows g) / 52, moveHistory)
    else
      let move := validMoves.getD (oracle 0 % validMoves.length) default
      let newState := (applyMove g move).1
      runSimAux (fun n => oracle (n + 1)) fuel newState
        (Hash newState :: seen) (moveHistory ++ [move])

/-- `runMonteCarloSimulation` from the MCTS source. -/
def runMonteCarloSimulation (gameState : StreetsGame) (pathStates : List (List Nat))
    (oracle : Nat → Nat) : ℚ × List Move :=
  runSimAux oracle maxRolloutLength gameState pathStates []

/-- The same rollout loop, projected to its final state and a flag
recording whether it stopped because no unseen legal move remained
(`true`) or because the move budget ran out (`false`). -/
def rolloutEnd (oracle : Nat → Nat) :
    Nat → StreetsGame → List (List Nat) → StreetsGame × Bool
  | 0, g, _ => (g, false)
  | fuel + 1, g, seen =>
    let validMoves := (generateLegalMoves g).filter
      (fun m => !(seen.contains (Hash (applyMove g m).1)))
    if validMoves = [] then (g, true)
    else
      let move := validMoves.getD (oracle 0 % validMoves.length) default
      let newState := (applyMove g move).1
      rolloutEnd (fun n => oracle (n + 1)) fuel newState (Hash newState :: seen)

lemma runSimAux_reward (oracle : Nat → Nat) :
    ∀ (fuel : Nat) (g : StreetsGame) (seen : List (List Nat)) (hist : List Move),
      (runSimAux oracle fuel g seen hist).1 =
        (if (rolloutEnd oracle fuel g seen).2
          then ((52 : ℚ) - CountCardsInRows (rolloutEnd oracle fuel g seen).1) / 52
          else ((52 : ℚ) - CountCardsInRows (rolloutEnd oracle fuel g seen).1 + 1) / 52)
  | 0, g, seen, hist => by simp [runSimAux, rolloutEnd]
  | fuel + 1, g, seen, hist => by
    rw [runSimAux, rolloutEnd]
    by_cases hv : (generateLegalMoves g).filter
        (fun m => !(seen.contains (Hash (applyMove g m).1))) = []
    · simp only [hv, if_pos]
    · simp only [if_neg hv]
      exact runSimAux_reward _ fuel _ _ _

/-- C9: the reward of every rollout equals the fraction of the 52 cards
on the foundations at rollout end — `(52 - cardsInRows)/52` when the
rollout got stuck with no unseen legal move — with a `+1/52` bonus when
the 150-move budget was exhausted instead. -/
theorem runMonteCarloSimulation_reward (gameState : StreetsGame)
    (pathStates : List (List Nat)) (oracle : Nat → Nat) :
    (runMonteCarloSimulation gameState pathStates oracle).1 =
      (if (rolloutEnd oracle maxRolloutLength gameState pathStates).2
        then ((52 : ℚ)
          - CountCardsInRows (rolloutEnd oracle maxRolloutLength gameState pathStates).1) / 52
        else ((52 : ℚ)
          - CountCardsInRows (rolloutEnd oracle maxRolloutLength gameState pathStates).1 + 1)
          / 52) :=
  runSimAux_reward oracle maxRolloutLength gameState pathStates []

end SA

/-!
The browser-side solver (src/utils/solver.js, consumed by the web
worker in the repository) and the worker loop itself operate on compact
state strings: row strings of one-character cards (char codes 48–111)
joined by `|` (124), followed by `_` (95) and the foundation strings
joined by `_`.  We embed those strings as lists of character codes.
-/

namespace SolverJS

/-- `getSolverValue` from solver.js: `(charCode - 48) % 16`. -/
def getSolverValue (c : Nat) : Nat := (c - 48) % 16

/-- `getSolverSuit` from solver.js: hearts 48–63, diamonds 64–79, clubs
80–95, spades 96–111. -/
def getSolverSuit (c : Nat) : Nat :=
  if c < 64 then 0 else if c < 80 then 1 else if c < 96 then 2 else 3

/-- `canMoveSolver` from solver.js: any card onto an empty target,
otherwise the target must be exactly one rank above. -/
def canMoveSolver (card : Nat) (target : Option Nat) : Bool :=
  match target with
  | none => true
  | some t => getSolverValue t == getSolverValue card + 1

/-- `canMoveToFoundationSolver` from solver.js: an Ace onto a missing
top card, otherwise same suit and exactly one rank above the top. -/
def canMoveToFoundationSolver (card : Nat) (top : Option Nat) : Bool :=
  match top with
  | none => getSolverValue card == 0
  | some t => getSolverSuit card == getSolverSuit t
      && getSolverValue card == getSolverValue t + 1

/-- `nextSolverStates` from src/utils/solver.js.  Note the two bugs it
carries verbatim: destructuring `split("_")` keeps only the first
foundation string, and there is no first-empty-row restriction on
column moves.  The JS `Set` is modelled by deduplicating the emitted
list. -/
def nextSolverStates (solverStr : List Nat) : List (List Nat) :=
  let parts := solverStr.splitOn 95
  let rows := (parts.headI).splitOn 124
  let foundations := (parts.getD 1 []).splitOn 95
  let foundationMoves :=
    (List.range rows.length).flatMap (fun fromRow =>
      let row := rows.getD fromRow []
      if row = [] then []
      else
        (List.range foundations.length).filterMap (fun suit =>
          let foundation := foundations.getD suit []
          if canMoveToFoundationSolver row.getLast! foundation.getLast? then
            some (List.intercalate [124] (rows.set fromRow row.dropLast)
              ++ 95 :: List.intercalate [95]
                ((foundations.set suit (foundation ++ [row.getLast!])).filter (· ≠ [])))
          else none))
  let rowMoves :=
    (List.range rows.length).flatMap (fun fromIndex =>
      let fromRow := rows.getD fromIndex []
      if fromRow = [] then []
      else
        (List.range rows.length).filterMap (fun toIndex =>
          if fromIndex = toIndex then none
          else
            let toRow := rows.getD toIndex []
            if canMoveSolver fromRow.getLast! toRow.getLast? then
              some (List.intercalate [124]
                  ((rows.set fromIndex fromRow.dropLast).set toIndex (toRow ++ [fromRow.getLast!]))
                ++ 95 :: List.intercalate [95] (foundations.filter (· ≠ [])))
            else none))
  (foundationMoves ++ rowMoves).dedup

/-- C4 counterexample: from the state `1|||||||` (a lone 2 of hearts in
row 0, rows 1–7 empty) the solver.js generator emits the move into row 2
— an empty row that is not the first empty row (row 1 is) — as well as
the move into row 1, so symmetric duplicate moves into interchangeable
empty columns are generated, contrary to the claim. -/
theorem nextSolverStates_second_empty_cex :
    ((124 :: 124 :: 49 :: [124, 124, 124, 124, 124, 95])
        ∈ nextSolverStates [49, 124, 124, 124, 124, 124, 124, 124])
    ∧ ((124 :: 49 :: [124, 124, 124, 124, 124, 124, 95])
        ∈ nextSolverStates [49, 124, 124, 124, 124, 124, 124, 124]) := by
  constructor
  · decide
  · decide

end SolverJS

namespace Worker000

/-- The solved-state check of `processQueue` in the web worker
(src/unnamed/part_000): despite the neighbouring comment `Check if
state is solved by examining foundations`, it declares a state complete
as soon as at least 3 row strings are empty. -/
def isComplete (nextState : List Nat) : Bool :=
  let rows := ((nextState.splitOn 95).headI).splitOn 124
  decide (3 ≤ (rows.filter (fun row => row.length == 0)).length)

/-- Ascending same-suit chain check for one foundation string. -/
def ascChain : Nat → List Nat → Bool
  | _, [] => true
  | p, c :: r =>
    (SolverJS.getSolverSuit c == SolverJS.getSolverSuit p
      && SolverJS.getSolverValue c == SolverJS.getSolverValue p + 1)
    && ascChain c r

/-- Modelled from the spec: a fully solved state — `all columns empty,
all 52 cards in foundations in valid order` (ascending same-suit from
Ace) — on the worker's compact string format.  src/ carries no correct
implementation of this check for the worker pipeline (the Go
`isSolution` sits in the other solver), so the spec's wording is the
comparison point. -/
def solvedPerSpec (state : List Nat) : Bool :=
  let parts := state.splitOn 95
  let rows := (parts.headI).splitOn 124
  let foundations := parts.drop 1
  rows.all (fun r => r == [])
    && (foundations.map List.length).sum == 52
    && foundations.all (fun f =>
        match f with
        | [] => true
        | c :: r => (SolverJS.getSolverValue c == 0) && ascChain c r)

/-- C5: the worker publishes a solution for the state
`0|1|2|3|4|||` (five cards still in rows, three empty columns, nothing
on the foundations), which is not a fully solved state. -/
theorem isComplete_not_solved :
    isComplete [48, 124, 49, 124, 50, 124, 51, 124, 52, 124, 124, 124] = true
    ∧ solvedPerSpec [48, 124, 49, 124, 50, 124, 51, 124, 52, 124, 124, 124] = false := by
  constructor
  · decide
  · decide

end Worker000

/-!
The concurrent Go solver (go_solver/solver.go) keys its shared state
history by the 64-bit FNV-1a hash of the compact state string
(`CompactState.Hash`), and stores `StateHistory` records in a
`sync.Map`.  We embed the map as an association list from hash values to
records; the optimistic compare-and-swap retry loop of `tryAddState`
sequentializes to a single lookup-and-update, which is exactly its
semantics for one linearized call.  Its card bytes start at `A` (65);
rows are joined by `|` (124) and foundations by `_` (95).
-/

namespace GoSolver

/-- 64-bit FNV-1a over the state bytes (`hash/fnv`, `CompactState.Hash`). -/
def fnv1a (s : List Nat) : Nat :=
  s.foldl (fun h b => ((h ^^^ b) * 1099511628211) % 2 ^ 64) 14695981039346656037

/-- `StateHistory` from solver.go. -/
structure StateHistory where
  parentState : List Nat
  move : List Nat
  depth : Nat
deriving DecidableEq, Repr

/-- The `stateHistory` map: hash → record, newest binding first. -/
abbrev Store := List (Nat × StateHistory)

lemma lookup_cons_self (k : Nat) (v : StateHistory) (l : Store) :
    List.lookup k ((k, v) :: l) = some v := by
  simp [List.lookup]

lemma lookup_cons_ne {k h : Nat} (v : StateHistory) (l : Store) (hk : k ≠ h) :
    List.lookup h ((k, v) :: l) = List.lookup h l := by
  simp [List.lookup, beq_eq_false_iff_ne.mpr (fun hh => hk hh.symm)]

/-- The `CompareAndSwap` update: replace the record bound to a hash. -/
def replaceRecord (h : Nat) (new : StateHistory) : Store → Store
  | [] => []
  | (k, v) :: rest =>
    (if k = h then (h, new) else (k, v)) :: replaceRecord h new rest

/-- `tryAddState` from solver.go, sequentialized (`stateHash :=
fnv1a state` inlined): install a fresh record when the hash is unseen;
replace when the offered depth is strictly smaller; otherwise leave the
store untouched and report `false`. -/
def tryAddState (store : Store) (state parent : List Nat) (move : List Nat)
    (depth : Nat) : Bool × Store :=
  match store.lookup (fnv1a state) with
  | none => (true, (fnv1a state, ⟨parent, move, depth⟩) :: store)
  | some existing =>
    if depth < existing.depth then
      (true, replaceRecord (fnv1a state) ⟨parent, move, depth⟩ store)
    else (false, store)

lemma lookup_replaceRecord (h : Nat) (new : StateHistory) :
    ∀ (store : Store) (ex : StateHistory), store.lookup h = some ex →
      (replaceRecord h new store).lookup h = some new
  | [], ex, hl => by simp at hl
  | (k, v) :: rest, ex, hl => by
    rw [replaceRecord]
    by_cases hk : k = h
    · rw [if_pos hk]
      exact lookup_cons_self h new _
    · rw [if_neg hk, lookup_cons_ne _ _ hk]
      rw [lookup_cons_ne _ _ hk] at hl
      exact lookup_replaceRecord h new rest ex hl

lemma tryAddState_none {store : Store} {state parent move : List Nat} {depth : Nat}
    (h : store.lookup (fnv1a state) = none) :
    tryAddState store state parent move depth
      = (true, (fnv1a state, ⟨parent, move, depth⟩) :: store) := by
  unfold tryAddState
  rw [h]

lemma tryAddState_some {store : Store} {state parent move : List Nat} {depth : Nat}
    {ex : StateHistory} (h : store.lookup (fnv1a state) = some ex) :
    tryAddState store state parent move depth
      = if depth < ex.depth
          then (true, replaceRecord (fnv1a state) ⟨parent, move, depth⟩ store)
          else (false, store) := by
  unfold tryAddState
  rw [h]

/-- C6: `tryAddState` installs and reports `true` on an unseen state,
replaces and reports `true` when the offered depth is strictly smaller
than the recorded one, and otherwise reports `false` leaving the store
unchanged. -/
theorem tryAddState_spec (store : Store) (state parent : List Nat)
    (move : List Nat) (depth : Nat) :
    (store.lookup (fnv1a state) = none →
      (tryAddState store state parent move depth).1 = true
      ∧ (tryAddState store state parent move depth).2.lookup (fnv1a state)
          = some ⟨parent, move, depth⟩)
    ∧ (∀ ex, store.lookup (fnv1a state) = some ex →
        (depth < ex.depth →
          (tryAddState store state parent move depth).1 = true
          ∧ (tryAddState store state parent move depth).2.lookup (fnv1a state)
              = some ⟨parent, move, depth⟩)
        ∧ (¬ depth < ex.depth →
          (tryAddState store state parent move depth).1 = false
          ∧ (tryAddState store state parent move depth).2 = store)) := by
  constructor
  · intro hnone
    rw [tryAddState_none hnone]
    exact ⟨rfl, lookup_cons_self _ _ _⟩
  · intro ex hsome
    constructor
    · intro hlt
      rw [tryAddState_some hsome, if_pos hlt]
      exact ⟨rfl, lookup_replaceRecord _ _ store ex hsome⟩
    · intro hge
      rw [tryAddState_some hsome, if_neg hge]
      exact ⟨rfl, rfl⟩

/-- Witness for C6: inserting into the empty store, then re-offering the
same state at an equal depth. -/
theorem tryAddState_spec_witness :
    ((tryAddState [] [65] [] [109] 1).1 = true
      ∧ (tryAddState [] [65] [] [109] 1).2.lookup (fnv1a [65]) = some ⟨[], [109], 1⟩)
    ∧ ((tryAddState [(fnv1a [65], ⟨[], [109], 1⟩)] [65] [66] [110] 1).1 = false
      ∧ (tryAddState [(fnv1a [65], ⟨[], [109], 1⟩)] [65] [66] [110] 1).2
          = [(fnv1a [65], ⟨[], [109], 1⟩)]) :=
  ⟨(tryAddState_spec [] [65] [] [109] 1).1 rfl,
   ((tryAddState_spec [(fnv1a [65], ⟨[], [109], 1⟩)] [65] [66] [110] 1).2
      ⟨[], [109], 1⟩ (by rfl)).2 (by decide)⟩

/-- `reconstructPath` from solver.go.  The Go loop terminates because
every iteration either breaks or adds a fresh hash to the local visited
set and follows a stored record, so at most one iteration per store
entry plus the final break can run; the explicit fuel
`store.length + 1` realizes exactly that bound. -/
def reconPathGo (store : Store) : Nat → List Nat → List (List Nat) → List Nat → List (List Nat)
  | 0, _, path, _ => path
  | fuel + 1, visited, path, current =>
    let stateHash := fnv1a current
    if stateHash ∈ visited then path
    else
      match store.lookup stateHash with
      | none => path
      | some history =>
        let path' := if history.move ≠ [] then history.move :: path else path
        if history.parentState = [] then path'
        else reconPathGo store fuel (stateHash :: visited) path' history.parentState

def reconstructPath (store : Store) (finalState : List Nat) : List (List Nat) :=
  reconPathGo store (store.length + 1) [] [] finalState

lemma lookup_some_mem_keys {h : Nat} {v : StateHistory} :
    ∀ {store : Store}, store.lookup h = some v → h ∈ store.map Prod.fst := by
  intro store
  induction store with
  | nil => intro hl; simp at hl
  | cons kv rest ih =>
    intro hl
    rcases kv with ⟨k, v⟩
    by_cases hk : k = h
    · simp [hk]
    · have hbk : (h == k) = false := beq_eq_false_iff_ne.mpr (fun hh => hk hh.symm)
      simp only [List.lookup, hbk] at hl
      simp only [List.map_cons, List.mem_cons]
      exact Or.inr (ih hl)

lemma reconPathGo_length (store : Store) :
    ∀ (fuel : Nat) (visited : List Nat) (path : List (List Nat)) (current : List Nat),
      (reconPathGo store fuel visited path current).length ≤
        path.length
          + ((store.map Prod.fst).dedup.filter (fun h => decide (h ∉ visited))).length
  | 0, visited, path, current => by
    simp [reconPathGo]
  | fuel + 1, visited, path, current => by
    rw [reconPathGo]
    by_cases hvis : fnv1a current ∈ visited
    · rw [if_pos hvis]
      omega
    · rw [if_neg hvis]
      cases hl : store.lookup (fnv1a current) with
      | none => simp
      | some history =>
        have hmem : fnv1a current ∈ (store.map Prod.fst).dedup.filter
            (fun h => decide (h ∉ visited)) := by
          rw [List.mem_filter]
          exact ⟨List.mem_dedup.mpr (lookup_some_mem_keys hl), by simpa using hvis⟩
        have hpos : 1 ≤ ((store.map Prod.fst).dedup.filter
            (fun h => decide (h ∉ visited))).length :=
          List.length_pos.mpr (List.ne_nil_of_mem hmem)
        have hdrop : ((store.map Prod.fst).dedup.filter
              (fun h => decide (h ∉ fnv1a current :: visited))).length
            < ((store.map Prod.fst).dedup.filter (fun h => decide (h ∉ visited))).length := by
          have heq : (store.map Prod.fst).dedup.filter
              (fun h => decide (h ∉ fnv1a current :: visited))
              = ((store.map Prod.fst).dedup.filter
                  (fun h => decide (h ∉ visited))).filter
                  (fun h => decide (h ≠ fnv1a current)) := by
            rw [List.filter_filter]
            refine List.filter_congr (fun x _ => ?_)
            simp only [List.mem_cons, decide_not, Bool.and_comm]
            cases hd1 : decide (x = fnv1a current) <;> cases hd2 : decide (x ∈ visited) <;>
              simp_all
          rw [heq]
          refine List.length_filter_lt_length_iff_exists.mpr ?_
          exact ⟨fnv1a current, hmem, by simp⟩
        have hlen' : (if history.move ≠ [] then history.move :: path else path).length
            ≤ path.length + 1 := by
          split <;> simp
        show (if history.parentState = [] then
                (if history.move ≠ [] then history.move :: path else path)
              else reconPathGo store fuel (fnv1a current :: visited)
                (if history.move ≠ [] then history.move :: path else path)
                history.parentState).length
            ≤ path.length
              + ((store.map Prod.fst).dedup.filter (fun h => decide (h ∉ visited))).length
        by_cases hroot : history.parentState = []
        · rw [if_pos hroot]
          omega
        · rw [if_neg hroot]
          have := reconPathGo_length store fuel (fnv1a current :: visited)
            (if history.move ≠ [] then history.move :: path else path) history.parentState
          omega

/-- C7 (amended): the visited-set guard makes `reconstructPath` a total
function that never signals an error: on every store — cyclic parent
links included — it returns normally, with at most one move per store
entry; on a cycle the result is the silently truncated list of moves
collected before the guard fired (see the counterexample), not a fatal
internal error as the spec demands. -/
theorem reconstructPath_silent_bound (store : Store) (finalState : List Nat) :
    (reconstructPath store finalState).length ≤ store.length := by
  have h := reconPathGo_length store (store.length + 1) [] [] finalState
  simp only [List.length_nil, Nat.zero_add] at h
  have h2 : ((store.map Prod.fst).dedup.filter (fun h => decide (h ∉ ([] : List Nat)))).length
      ≤ store.length := by
    calc ((store.map Prod.fst).dedup.filter (fun h => decide (h ∉ ([] : List Nat)))).length
        ≤ (store.map Prod.fst).dedup.length := List.length_filter_le _ _
      _ ≤ (store.map Prod.fst).length := (List.dedup_sublist _).length_le
      _ = store.length := List.length_map _ _
  unfold reconstructPath
  omega

/-- `getSolverValue` from solver.go: `int(card - 'A') % 13` (solver
state bytes are always ≥ 'A' = 65, so natural subtraction is exact). -/
def getSolverValue (card : Nat) : Nat := (card - 65) % 13

/-- `getSolverSuit` from solver.go: `int(card - 'A') / 13`. -/
def getSolverSuit (card : Nat) : Nat := (card - 65) / 13

/-- `canMoveSolver` from solver.go (`targetCard = 0` encodes an empty
destination row). -/
def canMoveSolver (card targetCard : Nat) : Bool :=
  if targetCard = 0 then true
  else getSolverValue targetCard == getSolverValue card + 1

/-- `canMoveToFoundationSolver` from solver.go. -/
def canMoveToFoundationSolver (card : Nat) (foundation : List Nat) : Bool :=
  if foundation = [] then getSolverValue card == 0
  else getSolverSuit card == getSolverSuit foundation.getLast!
    && getSolverValue card == getSolverValue foundation.getLast! + 1

/-- `NextStates` from solver.go, on compact state bytes.  It carries the
source's foundation-parsing defect verbatim: `strings.Split(state, "_")`
followed by `strings.Split(parts[1], "_")` leaves only the first
foundation string, the remaining foundations parse as empty and are
dropped from the successor states it emits. -/
def NextStates (state : List Nat) : List (List Nat) :=
  let parts := state.splitOn 95
  let rows := (parts.headI).splitOn 124
  let foundations0 := if 1 < parts.length then (parts.getD 1 []).splitOn 95 else []
  let foundations := foundations0 ++ List.replicate (4 - foundations0.length) []
  let foundationMoves :=
    (List.range rows.length).flatMap (fun fromRow =>
      let row := rows.getD fromRow []
      if row = [] then []
      else
        (List.range foundations.length).filterMap (fun suit =>
          let foundation := foundations.getD suit []
          if canMoveToFoundationSolver row.getLast! foundation then
            let newState := List.intercalate [124] (rows.set fromRow row.dropLast)
            let foundationStr :=
              List.intercalate [95] (foundations.set suit (foundation ++ [row.getLast!]))
            some (if foundationStr ≠ [] then newState ++ 95 :: foundationStr else newState)
          else none))
  let rowMoves :=
    (List.range rows.length).flatMap (fun fromRow =>
      let row := rows.getD fromRow []
      if row = [] then []
      else
        (List.range rows.length).filterMap (fun toRow =>
          if fromRow = toRow then none
          else
            let target := rows.getD toRow []
            let targetCard := if target ≠ [] then target.getLast! else 0
            if canMoveSolver row.getLast! targetCard then
              let newState :=
                List.intercalate [124] ((rows.set fromRow row.dropLast).set toRow
                  (target ++ [row.getLast!]))
              some (if 1 < parts.length then newState ++ 95 :: (parts.getD 1 []) else newState)
            else none))
  foundationMoves ++ rowMoves

/-- Cards still in the rows section of a compact state. -/
def rowsCardCount (state : List Nat) : Nat :=
  ((((state.splitOn 95).headI).splitOn 124).map List.length).sum

/-- C3 evaluated at the failing input: the state `O|||||||__N__` (2♦
exposed on row 0; foundations H = `` , D = `N` = A♦, C = `` , S = `` ,
exactly as `NextStates` itself serializes foundations).  The claim's
rule makes the 2♦ → diamond-foundation move legal — same suit, exactly
one rank above the foundation top — and `canMoveToFoundationSolver`
agrees; yet every state `NextStates` emits still has the 2♦ in the rows
(the move is never generated), because the re-split of `parts[1]`
erases all foundations after the first. -/
theorem NextStates_misses_foundation_move :
    getSolverSuit 79 = getSolverSuit 78
    ∧ getSolverValue 79 = getSolverValue 78 + 1
    ∧ canMoveToFoundationSolver 79 [78] = true
    ∧ (∀ t ∈ NextStates [79, 124, 124, 124, 124, 124, 124, 124, 95, 95, 78, 95, 95],
        rowsCardCount t = 1) := by decide

/-- C7 counterexample: a store whose two records point at each other
(state `A` was reached from `B` by move `m2`, and `B` from `A` by move
`m1` — a cycle with no root).  Walking from `A`, the reconstructor
collects both moves, hits the visited-set guard on revisiting `A`, and
silently returns the truncated two-move list; no error of any kind is
surfaced (its return type has no error channel). -/
theorem reconstructPath_cycle_cex :
    reconstructPath
      [(fnv1a [65], ⟨[66], [109, 49], 1⟩), (fnv1a [66], ⟨[65], [109, 50], 2⟩)]
      [65]
      = [[109, 50], [109, 49]] := by decide

end GoSolver
